import Mathlib

/-!
Verification of the TestOps Copilot backend (Python) against its
natural-language specification.

The relevant Python functions are shallowly embedded as executable Lean
definitions.  Conventions used throughout:

* Python strings are modelled as `List Char` (or Lean `String` where only
  equality on short literal keys is needed).  The ASCII fragment of the
  Python whitespace / lower-casing behaviour is modelled; the exotic
  Unicode cases are irrelevant to every claim checked here.
* Python floats are modelled as exact rationals (`ℚ`); `int(x)` on a
  non-negative value is the floor.
* Python exceptions are modelled with `Except`; a `try/except` block is a
  `match` on the `Except` value.
* Nondeterministic inputs of the code (the current timestamp, the LLM
  response, the stdlib JSON decoder) are explicit parameters, universally
  quantified in the theorems.
-/

namespace TestOps

/-! ## Python string primitives -/

/-- ASCII fragment of the Python `str.isspace` test (the characters the
Python `str.strip()` with no argument removes). -/
def pyIsSpace (c : Char) : Bool :=
  c = ' ' || c = '\t' || c = '\n' || c = '\r' || c = '\x0b' || c = '\x0c'

/-- Drop the trailing characters satisfying `p`. -/
def dropTrailing (p : Char → Bool) (l : List Char) : List Char :=
  (l.reverse.dropWhile p).reverse

/-- Python `str.strip()` (no argument): remove leading and trailing
whitespace. -/
def pyStrip (l : List Char) : List Char :=
  dropTrailing pyIsSpace (l.dropWhile pyIsSpace)

/-! ## `src/backend/src/utils/helpers.py` : `calculate_estimated_time` -/

/-- The `base_times` dict of `calculate_estimated_time` together with the
`.get(test_type, 30)` default.  Note the keys are the strings
"auto_ui" / "auto_api", not the `TestType` enum values. -/
def base_times (t : String) : Nat :=
  if t = "manual_ui" then 30
  else if t = "manual_api" then 25
  else if t = "auto_ui" then 45
  else if t = "auto_api" then 35
  else 30

/-- The count-dependent multiplier of `calculate_estimated_time`. -/
def time_multiplier (count : Nat) : ℚ :=
  if count ≤ 10 then 1 else if count ≤ 30 then 9/10 else 8/10

/-- `helpers.calculate_estimated_time`: `int(base_time * count * multiplier)`
clamped to `[60, 1800]`.  Floats are modelled as rationals; `int` of the
non-negative product is the floor. -/
def calculate_estimated_time (count : Nat) (t : String) : Nat :=
  max 60 (min
    (Int.toNat ⌊((base_times t : ℚ) * (count : ℚ)) * time_multiplier count⌋) 1800)

/-! ## `src/backend/src/models/enums.py` : `TestType` -/

/-- The `TestType` enum. -/
inductive TestType where
  | manual_ui
  | manual_api
  | automated_ui
  | automated_api
deriving DecidableEq

/-- The `.value` string of each `TestType` member. -/
def TestType.value : TestType → String
  | .manual_ui => "manual_ui"
  | .manual_api => "manual_api"
  | .automated_ui => "automated_ui"
  | .automated_api => "automated_api"

/-- Modelled from the spec: the estimated-duration constants the spec
states for the enum test types (manual_ui=30, manual_api=25,
automated_ui=45, automated_api=35); used only to compare the spec reading
with the code. -/
def spec_base_times : TestType → Nat
  | .manual_ui => 30
  | .manual_api => 25
  | .automated_ui => 45
  | .automated_api => 35

/-- Modelled from the spec: the estimated duration the spec predicts,
`clamp(int(base * count * multiplier), 60, 1800)` with the spec base
constants. -/
def spec_estimated_time (count : Nat) (t : TestType) : Nat :=
  max 60 (min
    (Int.toNat ⌊((spec_base_times t : ℚ) * (count : ℚ)) * time_multiplier count⌋) 1800)

/-- The base the code actually uses for each enum test type: the dict keys
"auto_ui" / "auto_api" never match the enum values "automated_ui" /
"automated_api", so the automated types fall to the `.get` default 30. -/
def base_times_on_enum : TestType → Nat
  | .manual_ui => 30
  | .manual_api => 25
  | .automated_ui => 30
  | .automated_api => 30

/-! ## `src/backend/src/utils/validators.py` : `validate_requirements_text` -/

/-- `validators.validate_requirements_text`, returning the `(valid, error)`
pair.  The length guards are exactly those of the source: the minimum is
checked on the stripped text, the maximum on the raw text. -/
def validate_requirements_text (text : List Char) : Bool × Option String :=
  if text = [] ∨ pyStrip text = [] then
    (false, some "Текст требований не может быть пустым")
  else if (pyStrip text).length < 20 then
    (false, some "Текст требований слишком короткий (минимум 20 символов)")
  else if 10000 < text.length then
    (false, some "Текст требований слишком длинный (максимум 10000 символов)")
  else (true, none)

/-- A requirements text whose stripped length is 20 but whose raw length is
10001: inside the bounds the claim states, rejected by the code. -/
def overlongPaddedText : List Char :=
  List.replicate 20 'a' ++ List.replicate 9981 ' '

/-! ## Theorems for claims C4, C5, C9 -/

/-- Evaluation bridge: the floor-of-rational product equals an integer
division on naturals, tier by tier. -/
theorem floor_mul_multiplier (b count : Nat) :
    (⌊((b : ℚ) * (count : ℚ)) * time_multiplier count⌋).toNat =
      (if count ≤ 10 then 10 else if count ≤ 30 then 9 else 8) * (b * count) / 10 := by
  unfold time_multiplier
  split_ifs with h1 h2
  · have h : ((b : ℚ) * (count : ℚ)) * 1 = ((10 * (b * count) : ℕ) : ℚ) / ((10 : ℕ) : ℚ) := by
      push_cast; ring
    rw [h, Rat.floor_natCast_div_natCast, ← Int.natCast_div, Int.toNat_natCast]
  · have h : ((b : ℚ) * (count : ℚ)) * (9/10) =
        ((9 * (b * count) : ℕ) : ℚ) / ((10 : ℕ) : ℚ) := by
      push_cast; ring
    rw [h, Rat.floor_natCast_div_natCast, ← Int.natCast_div, Int.toNat_natCast]
  · have h : ((b : ℚ) * (count : ℚ)) * (8/10) =
        ((8 * (b * count) : ℕ) : ℚ) / ((10 : ℕ) : ℚ) := by
      push_cast; ring
    rw [h, Rat.floor_natCast_div_natCast, ← Int.natCast_div, Int.toNat_natCast]

/-- Nat-only evaluation form of `calculate_estimated_time`. -/
theorem calculate_estimated_time_eval (count : Nat) (t : String) :
    calculate_estimated_time count t =
      max 60 (min
        ((if count ≤ 10 then 10 else if count ≤ 30 then 9 else 8) *
          (base_times t * count) / 10) 1800) := by
  unfold calculate_estimated_time
  rw [floor_mul_multiplier]

/-- Nat-only evaluation form of `spec_estimated_time`. -/
theorem spec_estimated_time_eval (count : Nat) (t : TestType) :
    spec_estimated_time count t =
      max 60 (min
        ((if count ≤ 10 then 10 else if count ≤ 30 then 9 else 8) *
          (spec_base_times t * count) / 10) 1800) := by
  unfold spec_estimated_time
  rw [floor_mul_multiplier]

/-- Claim C4, counterexample: on the enum value "automated_ui" with
count 20 the code returns 540 (base 30, the dict default), not the 810 the
claim (base 45) predicts. -/
theorem calculate_estimated_time_enum_counterexample :
    calculate_estimated_time 20 (TestType.automated_ui).value = 540 ∧
    spec_estimated_time 20 TestType.automated_ui = 810 ∧
    calculate_estimated_time 20 (TestType.automated_ui).value ≠
      spec_estimated_time 20 TestType.automated_ui := by
  rw [calculate_estimated_time_eval, spec_estimated_time_eval]
  refine ⟨by decide, by decide, by decide⟩

/-- Claim C4, amended: for every count and enum test type the helper
returns `clamp(int(base * count * multiplier), 60, 1800)` where the base is
30 for manual_ui, 25 for manual_api, and 30 (the dict-lookup default) for
automated_ui and automated_api, because the dict keys are "auto_ui" and
"auto_api"; the multiplier is 1 for count ≤ 10, 9/10 for count ≤ 30 and
8/10 otherwise. -/
theorem calculate_estimated_time_on_enum (count : Nat) (t : TestType) :
    calculate_estimated_time count t.value =
      max 60 (min (Int.toNat
        ⌊((base_times_on_enum t : ℚ) * (count : ℚ)) * time_multiplier count⌋) 1800) := by
  cases t <;> rfl

/-- Dropping a replicated block whose element satisfies the predicate
continues into the rest of the list. -/
theorem dropWhile_replicate_append (p : Char → Bool) (c : Char) (hp : p c = true)
    (n : Nat) (l : List Char) :
    List.dropWhile p (List.replicate n c ++ l) = List.dropWhile p l := by
  induction n with
  | zero => simp
  | succ n ih =>
    rw [List.replicate_succ, List.cons_append, List.dropWhile_cons, hp]
    simpa using ih

/-- The stripped form of the padded counterexample text: the 9981 trailing
spaces go, the 20 letters stay. -/
theorem pyStrip_overlongPaddedText :
    pyStrip overlongPaddedText = List.replicate 20 'a' := by
  have ha : pyIsSpace 'a' = false := by decide
  have hsp : pyIsSpace ' ' = true := by decide
  have hdrop1 : List.dropWhile pyIsSpace overlongPaddedText = overlongPaddedText := by
    rw [show overlongPaddedText =
        'a' :: (List.replicate 19 'a' ++ List.replicate 9981 ' ') from rfl]
    rw [List.dropWhile_cons, ha]
    simp only [Bool.false_eq_true, if_false]
  unfold pyStrip
  rw [hdrop1]
  unfold dropTrailing
  rw [show overlongPaddedText = List.replicate 20 'a' ++ List.replicate 9981 ' ' from rfl,
    List.reverse_append, List.reverse_replicate, List.reverse_replicate,
    dropWhile_replicate_append pyIsSpace ' ' hsp,
    show List.replicate 20 'a' = 'a' :: List.replicate 19 'a' from rfl,
    List.dropWhile_cons, ha]
  simp only [Bool.false_eq_true, if_false, List.reverse_cons, List.reverse_replicate]
  rw [← List.replicate_succ']
  exact List.replicate_succ 'a' 19

/-- Claim C5, counterexample: a text of 20 letters followed by 9981 spaces
has stripped length 20 (inside the claimed trimmed bounds, and non-empty
after trimming) yet is rejected, because the code checks the 10000 maximum
on the raw length, not the trimmed length. -/
theorem validate_requirements_text_counterexample :
    (validate_requirements_text overlongPaddedText).1 = false ∧
    pyStrip overlongPaddedText ≠ [] ∧
    20 ≤ (pyStrip overlongPaddedText).length ∧
    (pyStrip overlongPaddedText).length ≤ 10000 := by
  have hne : pyStrip overlongPaddedText ≠ [] := by
    rw [pyStrip_overlongPaddedText]; decide
  have hlen20 : (pyStrip overlongPaddedText).length = 20 := by
    rw [pyStrip_overlongPaddedText, List.length_replicate]
  have hlenraw : overlongPaddedText.length = 10001 := by
    unfold overlongPaddedText
    rw [List.length_append, List.length_replicate, List.length_replicate]
  refine ⟨?_, hne, by omega, by omega⟩
  unfold validate_requirements_text
  rw [if_neg (by
        push_neg
        refine ⟨?_, hne⟩
        rw [show overlongPaddedText =
          'a' :: (List.replicate 19 'a' ++ List.replicate 9981 ' ') from rfl]
        exact List.cons_ne_nil _ _),
    if_neg (by omega), if_pos (by omega)]

/-- Claim C5, amended: the validator returns valid = true exactly when the
trimmed text is non-empty, the trimmed length is at least 20, and the raw
(untrimmed) length is at most 10000; and it returns no error message
exactly when it returns valid = true. -/
theorem validate_requirements_text_spec (text : List Char) :
    ((validate_requirements_text text).1 = true ↔
      (pyStrip text ≠ [] ∧ 20 ≤ (pyStrip text).length ∧ text.length ≤ 10000)) ∧
    ((validate_requirements_text text).2 = none ↔
      (validate_requirements_text text).1 = true) := by
  unfold validate_requirements_text
  split_ifs with h1 h2 h3
  · refine ⟨⟨fun h => by simp at h, ?_⟩, by simp⟩
    rintro ⟨hne, h20, _⟩
    rcases h1 with h | h
    · exact absurd (by rw [h]; rfl : pyStrip text = []) hne
    · exact absurd h hne
  · refine ⟨⟨fun h => by simp at h, ?_⟩, by simp⟩
    rintro ⟨_, h20, _⟩
    omega
  · refine ⟨⟨fun h => by simp at h, ?_⟩, by simp⟩
    rintro ⟨_, _, hlen⟩
    omega
  · push_neg at h1
    exact ⟨⟨fun _ => ⟨h1.2, by omega, by omega⟩, fun _ => rfl⟩, by simp⟩

/-- Claim C9: the estimated duration is always within [60, 1800], and for a
fixed test type it is monotone in the count while the count stays inside a
single multiplier tier (both ≤ 10, both in 11–30, or both > 30). -/
theorem calculate_estimated_time_bounds_mono (c₁ c₂ : Nat) (t : String)
    (hle : c₁ ≤ c₂)
    (htier : (c₁ ≤ 10 ∧ c₂ ≤ 10) ∨ (10 < c₁ ∧ c₁ ≤ 30 ∧ 10 < c₂ ∧ c₂ ≤ 30) ∨
      (30 < c₁ ∧ 30 < c₂)) :
    60 ≤ calculate_estimated_time c₁ t ∧
    calculate_estimated_time c₁ t ≤ 1800 ∧
    calculate_estimated_time c₁ t ≤ calculate_estimated_time c₂ t := by
  have hmul : time_multiplier c₁ = time_multiplier c₂ := by
    unfold time_multiplier
    rcases htier with ⟨h1, h2⟩ | ⟨h1, h2, h3, h4⟩ | ⟨h1, h2⟩
    · rw [if_pos h1, if_pos h2]
    · rw [if_neg (by omega), if_pos h2, if_neg (by omega), if_pos h4]
    · rw [if_neg (by omega), if_neg (by omega), if_neg (by omega), if_neg (by omega)]
  have hmulpos : 0 ≤ time_multiplier c₁ := by
    unfold time_multiplier
    split
    · norm_num
    · split <;> norm_num
  refine ⟨le_max_left _ _, ?_, ?_⟩
  · exact max_le (by norm_num) (min_le_right _ _)
  · unfold calculate_estimated_time
    refine max_le_max (le_refl 60) (min_le_min ?_ (le_refl 1800))
    refine Int.toNat_le_toNat (Int.floor_le_floor ?_)
    rw [← hmul]
    have : ((base_times t : ℚ) * (c₁ : ℚ)) ≤ ((base_times t : ℚ) * (c₂ : ℚ)) := by
      have : (c₁ : ℚ) ≤ (c₂ : ℚ) := by exact_mod_cast hle
      exact mul_le_mul_of_nonneg_left this (by positivity)
    exact mul_le_mul_of_nonneg_right this hmulpos

/-- Witness for claim C9 at counts 12 ≤ 20 (both in the middle tier) and
test type "auto_ui". -/
theorem calculate_estimated_time_bounds_mono_witness :
    60 ≤ calculate_estimated_time 12 "auto_ui" ∧
    calculate_estimated_time 12 "auto_ui" ≤ 1800 ∧
    calculate_estimated_time 12 "auto_ui" ≤ calculate_estimated_time 20 "auto_ui" :=
  calculate_estimated_time_bounds_mono 12 20 "auto_ui" (by decide)
    (Or.inr (Or.inl (by decide)))

/-! ## Filename sanitizers
(`helpers.sanitize_filename` and `validators.sanitize_filename`)

Both start with the same three regex steps: replace the characters
`<>:"/\|?*` by underscores, collapse runs of underscores, strip leading
and trailing underscores.  They differ in the empty-result default and in
the forced ".py" suffix of the validator variant. -/

/-- The characters the sanitizer regex replaces. -/
def isBadFileChar (c : Char) : Bool :=
  c = '<' || c = '>' || c = ':' || c = '"' || c = '/' || c = '\\' ||
    c = '|' || c = '?' || c = '*'

/-- One character of the regex substitution step. -/
def replaceBad (c : Char) : Char := if isBadFileChar c then '_' else c

/-- The second regex step: collapse every run of underscores to a single
one (each run keeps one underscore). -/
def collapseUnderscores : List Char → List Char
  | [] => []
  | [c] => [c]
  | a :: b :: rest =>
    if a = '_' ∧ b = '_' then collapseUnderscores (b :: rest)
    else a :: collapseUnderscores (b :: rest)

/-- Test for the underscore character. -/
def isUnd (c : Char) : Bool := c = '_'

/-- Python `str.strip('_')`. -/
def stripUnderscores (l : List Char) : List Char :=
  dropTrailing isUnd (l.dropWhile isUnd)

/-- The three regex steps shared by both sanitizers. -/
def sanitizeCore (l : List Char) : List Char :=
  stripUnderscores (collapseUnderscores (l.map replaceBad))

/-- Decimal digit characters of a natural number (the model of Python
string interpolation of an int), with explicit fuel. -/
def natDigitsAux : Nat → Nat → List Char
  | 0, _ => []
  | fuel + 1, n =>
    if n < 10 then [Nat.digitChar n]
    else natDigitsAux fuel (n / 10) ++ [Nat.digitChar (n % 10)]

/-- Decimal representation of a natural number. -/
def natDigits (n : Nat) : List Char := natDigitsAux (n + 1) n

/-- The timestamp-based default of `helpers.sanitize_filename`. -/
def timestampDefaultName (ts : Nat) : List Char := "file_".toList ++ natDigits ts

/-- `helpers.sanitize_filename`; the current timestamp (an int in the
source) is an explicit parameter. -/
def sanitize_filename_helpers (ts : Nat) (l : List Char) : List Char :=
  if sanitizeCore l = [] then timestampDefaultName ts else sanitizeCore l

/-- The `validators.sanitize_filename` value before the suffix step:
default "file" when the regex pipeline leaves nothing. -/
def validatorsBase (l : List Char) : List Char :=
  if sanitizeCore l = [] then "file".toList else sanitizeCore l

/-- `validators.sanitize_filename`: default "file" and a forced ".py"
suffix. -/
def sanitize_filename_validators (l : List Char) : List Char :=
  if ".py".toList.isSuffixOf (validatorsBase l) then validatorsBase l
  else validatorsBase l ++ ".py".toList

/-- No two adjacent underscores. -/
def noDU (l : List Char) : Prop :=
  l.Chain' (fun a b => ¬(a = '_' ∧ b = '_'))

/-- A string the three shared regex steps leave untouched. -/
def CleanName (l : List Char) : Prop :=
  (∀ c ∈ l, isBadFileChar c = false) ∧ noDU l ∧
    l.head? ≠ some '_' ∧ l.getLast? ≠ some '_'

/-! ### Lemmas about the substitution step -/

/-- The substitution step never produces a replaced character. -/
theorem replaceBad_not_bad (c : Char) : isBadFileChar (replaceBad c) = false := by
  unfold replaceBad
  split_ifs with h
  · decide
  · simpa using h

/-- The substitution step keeps clean characters. -/
theorem replaceBad_id (c : Char) (h : isBadFileChar c = false) : replaceBad c = c := by
  unfold replaceBad
  simp [h]

/-- On a clean string the substitution step is the identity. -/
theorem map_replaceBad_id (l : List Char) (h : ∀ c ∈ l, isBadFileChar c = false) :
    l.map replaceBad = l := by
  induction l with
  | nil => rfl
  | cons c t ih =>
    rw [List.map_cons, replaceBad_id c (h c (by simp)),
      ih (fun d hd => h d (by simp [hd]))]

/-! ### Lemmas about the collapse step -/

/-- Collapsing keeps the head character. -/
theorem collapse_cons (b : Char) (rest : List Char) :
    ∃ t, collapseUnderscores (b :: rest) = b :: t := by
  induction rest generalizing b with
  | nil => exact ⟨[], rfl⟩
  | cons c r ih =>
    unfold collapseUnderscores
    split_ifs with h
    · obtain ⟨t, ht⟩ := ih c
      exact ⟨t, by rw [ht, h.1, h.2]⟩
    · exact ⟨collapseUnderscores (c :: r), rfl⟩

/-- The collapse step leaves no two adjacent underscores. -/
theorem collapse_noDU : ∀ l : List Char, noDU (collapseUnderscores l)
  | [] => List.chain'_nil
  | [c] => List.chain'_singleton c
  | a :: b :: rest => by
    have ih := collapse_noDU (b :: rest)
    unfold collapseUnderscores
    split_ifs with h
    · exact ih
    · obtain ⟨t, ht⟩ := collapse_cons b rest
      rw [ht] at ih ⊢
      exact List.chain'_cons.mpr ⟨h, ih⟩

/-- On a string with no run of underscores the collapse step is the
identity. -/
theorem collapse_id : ∀ l : List Char, noDU l → collapseUnderscores l = l
  | [], _ => rfl
  | [_], _ => rfl
  | a :: b :: rest, h => by
    have h' := List.chain'_cons.mp h
    unfold collapseUnderscores
    rw [if_neg h'.1, collapse_id (b :: rest) h'.2]

/-- Collapsing only keeps characters of the input. -/
theorem collapse_subset : ∀ l : List Char, ∀ c ∈ collapseUnderscores l, c ∈ l
  | [], c, hc => hc
  | [d], c, hc => hc
  | a :: b :: rest, c, hc => by
    unfold collapseUnderscores at hc
    split_ifs at hc with h
    · exact List.mem_cons_of_mem a (collapse_subset (b :: rest) c hc)
    · rcases List.mem_cons.mp hc with rfl | h1
      · exact List.mem_cons_self _ _
      · exact List.mem_cons_of_mem a (collapse_subset (b :: rest) c h1)

/-! ### Lemmas about the strip step -/

/-- After dropping leading underscores the head is not an underscore. -/
theorem dropWhile_und_head? (l : List Char) :
    (l.dropWhile isUnd).head? ≠ some '_' := by
  induction l with
  | nil => simp
  | cons c t ih =>
    rw [List.dropWhile_cons]
    split_ifs with h
    · exact ih
    · simp only [List.head?_cons, ne_eq, Option.some.injEq]
      intro hc
      exact h (by simp [isUnd, hc])

/-- Dropping leading underscores from a string whose head is not an
underscore changes nothing. -/
theorem dropWhile_und_id (l : List Char) (h : l.head? ≠ some '_') :
    l.dropWhile isUnd = l := by
  cases l with
  | nil => rfl
  | cons c t =>
    rw [List.dropWhile_cons, if_neg]
    simp only [List.head?_cons, ne_eq, Option.some.injEq] at h
    simp [isUnd, h]

/-- Dropping leading underscores keeps the last element (or empties the
list). -/
theorem dropWhile_und_getLast? (l : List Char) :
    l.dropWhile isUnd = [] ∨ (l.dropWhile isUnd).getLast? = l.getLast? := by
  induction l with
  | nil => exact Or.inl rfl
  | cons c t ih =>
    rw [List.dropWhile_cons]
    split_ifs with h
    · cases t with
      | nil => exact Or.inl rfl
      | cons d r =>
        rcases ih with h1 | h1
        · exact Or.inl h1
        · exact Or.inr (by rw [h1, List.getLast?_cons_cons])
    · exact Or.inr rfl

/-- Dropping leading underscores preserves the no-double-underscore
property. -/
theorem dropWhile_und_noDU (l : List Char) (h : noDU l) : noDU (l.dropWhile isUnd) := by
  induction l with
  | nil => exact h
  | cons c t ih =>
    rw [List.dropWhile_cons]
    split_ifs with hc
    · exact ih (List.Chain'.tail h)
    · exact h

/-- The no-double-underscore property is preserved by reversal. -/
theorem noDU_reverse (l : List Char) (h : noDU l) : noDU l.reverse :=
  List.chain'_reverse.mpr (h.imp (fun _ _ hab ⟨hb, ha⟩ => hab ⟨ha, hb⟩))

/-- The strip step never leaves a leading underscore. -/
theorem stripUnderscores_head? (l : List Char) :
    (stripUnderscores l).head? ≠ some '_' := by
  unfold stripUnderscores dropTrailing
  rcases dropWhile_und_getLast? (l.dropWhile isUnd).reverse with h | h
  · rw [h]
    simp
  · rw [List.head?_reverse, h, List.getLast?_reverse]
    exact dropWhile_und_head? l

/-- The strip step never leaves a trailing underscore. -/
theorem stripUnderscores_getLast? (l : List Char) :
    (stripUnderscores l).getLast? ≠ some '_' := by
  unfold stripUnderscores dropTrailing
  rw [List.getLast?_reverse]
  exact dropWhile_und_head? _

/-- The strip step is the identity on a string with clean ends. -/
theorem stripUnderscores_id (l : List Char) (h1 : l.head? ≠ some '_')
    (h2 : l.getLast? ≠ some '_') : stripUnderscores l = l := by
  unfold stripUnderscores dropTrailing
  rw [dropWhile_und_id l h1, dropWhile_und_id _ (by rwa [List.head?_reverse]),
    List.reverse_reverse]

/-- The strip step preserves the no-double-underscore property. -/
theorem stripUnderscores_noDU (l : List Char) (h : noDU l) :
    noDU (stripUnderscores l) :=
  noDU_reverse _ (dropWhile_und_noDU _ (noDU_reverse _ (dropWhile_und_noDU _ h)))

/-- The strip step only keeps characters of the input. -/
theorem stripUnderscores_subset (l : List Char) :
    ∀ c ∈ stripUnderscores l, c ∈ l := by
  intro c hc
  unfold stripUnderscores dropTrailing at hc
  rw [List.mem_reverse] at hc
  have h1 := (List.dropWhile_sublist isUnd).subset hc
  rw [List.mem_reverse] at h1
  exact (List.dropWhile_sublist isUnd).subset h1

/-! ### The core pipeline -/

/-- The shared regex pipeline always yields a clean string. -/
theorem sanitizeCore_clean (l : List Char) : CleanName (sanitizeCore l) := by
  refine ⟨?_, ?_, ?_, ?_⟩
  · intro c hc
    have h1 := stripUnderscores_subset _ c hc
    have h2 := collapse_subset _ c h1
    obtain ⟨d, _, hd⟩ := List.mem_map.mp h2
    exact hd ▸ replaceBad_not_bad d
  · exact stripUnderscores_noDU _ (collapse_noDU _)
  · exact stripUnderscores_head? _
  · exact stripUnderscores_getLast? _

/-- The shared regex pipeline is the identity on clean strings. -/
theorem sanitizeCore_id (l : List Char) (h : CleanName l) : sanitizeCore l = l := by
  obtain ⟨h1, h2, h3, h4⟩ := h
  unfold sanitizeCore
  rw [map_replaceBad_id l h1, collapse_id l h2, stripUnderscores_id l h3 h4]

/-! ### The timestamp default and the ".py" suffix -/

/-- Every digit character is clean. -/
theorem digitChar_clean (k : Nat) (h : k < 10) :
    isBadFileChar (Nat.digitChar k) = false ∧ ¬(Nat.digitChar k = '_') := by
  interval_cases k <;> exact ⟨rfl, by decide⟩

/-- Every character of the decimal representation is a clean digit. -/
theorem natDigitsAux_mem : ∀ (f n : Nat), ∀ c ∈ natDigitsAux f n,
    isBadFileChar c = false ∧ ¬(c = '_')
  | 0, _, c, hc => absurd hc (List.not_mem_nil c)
  | f + 1, n, c, hc => by
    unfold natDigitsAux at hc
    split_ifs at hc with h
    · rw [List.mem_singleton] at hc
      exact hc ▸ digitChar_clean n h
    · rcases List.mem_append.mp hc with h1 | h1
      · exact natDigitsAux_mem f (n / 10) c h1
      · rw [List.mem_singleton] at h1
        exact h1 ▸ digitChar_clean (n % 10) (Nat.mod_lt n (by omega))

/-- The decimal representation is never empty. -/
theorem natDigits_ne_nil (n : Nat) : natDigits n ≠ [] := by
  unfold natDigits natDigitsAux
  split_ifs with h
  · exact List.cons_ne_nil _ _
  · exact List.append_ne_nil_of_right_ne_nil _ (List.cons_ne_nil _ [])

/-- Any string made of clean non-underscore characters has no double
underscore. -/
theorem noDU_of_no_und (l : List Char) (h : ∀ c ∈ l, ¬(c = '_')) : noDU l := by
  induction l with
  | nil => exact List.chain'_nil
  | cons c t ih =>
    refine List.Chain'.cons' (ih (fun d hd => h d (by simp [hd]))) ?_
    intro y _
    exact fun ⟨hc, _⟩ => h c (by simp) hc

/-- Helper introduction rule for `noDU`. -/
theorem noDU_cons_cons (a b : Char) (t : List Char) (h : ¬(a = '_' ∧ b = '_'))
    (ht : noDU (b :: t)) : noDU (a :: b :: t) :=
  List.chain'_cons.mpr ⟨h, ht⟩

/-- A one-character string has no double underscore. -/
theorem noDU_single (c : Char) : noDU [c] := List.chain'_singleton c

/-- The literal "file_" has no double underscore. -/
theorem noDU_file_und : noDU ("file_".toList) :=
  noDU_cons_cons 'f' 'i' _ (by decide) (noDU_cons_cons 'i' 'l' _ (by decide)
    (noDU_cons_cons 'l' 'e' _ (by decide) (noDU_cons_cons 'e' '_' _ (by decide)
      (noDU_single '_'))))

/-- The timestamp default name is clean. -/
theorem timestampDefaultName_clean (ts : Nat) : CleanName (timestampDefaultName ts) := by
  have hdig := natDigitsAux_mem (ts + 1) ts
  unfold timestampDefaultName
  refine ⟨?_, ?_, ?_, ?_⟩
  · intro c hc
    rcases List.mem_append.mp hc with h1 | h1
    · exact (by decide : ∀ c ∈ "file_".toList, isBadFileChar c = false) c h1
    · exact (hdig c h1).1
  · refine List.Chain'.append noDU_file_und
      (noDU_of_no_und _ (fun c hc => (hdig c hc).2)) ?_
    intro x _ y hy
    have hmem : y ∈ natDigits ts := List.mem_of_mem_head? hy
    exact fun ⟨_, hy'⟩ => (hdig y hmem).2 hy'
  · rw [List.head?_append, show ("file_".toList).head? = some 'f' from rfl,
      Option.or_some]
    decide
  · rw [List.getLast?_append]
    cases hg : (natDigits ts).getLast? with
    | none =>
      exact absurd (List.getLast?_eq_none_iff.mp hg) (natDigits_ne_nil ts)
    | some c =>
      have hmem : c ∈ natDigits ts := List.mem_of_getLast?_eq_some hg
      simp only [Option.or_some, ne_eq, Option.some.injEq]
      exact (natDigitsAux_mem _ _ c hmem).2

/-! ### The two sanitizers -/

/-- The helper sanitizer always yields a clean string. -/
theorem sanitize_filename_helpers_clean (ts : Nat) (x : List Char) :
    CleanName (sanitize_filename_helpers ts x) := by
  unfold sanitize_filename_helpers
  split_ifs with h
  · exact timestampDefaultName_clean ts
  · exact sanitizeCore_clean x

/-- The helper sanitizer never yields the empty string. -/
theorem sanitize_filename_helpers_ne_nil (ts : Nat) (x : List Char) :
    sanitize_filename_helpers ts x ≠ [] := by
  unfold sanitize_filename_helpers
  split_ifs with h
  · exact List.append_ne_nil_of_left_ne_nil (by decide) _
  · exact h

/-- The helper sanitizer is the identity on clean non-empty strings. -/
theorem sanitize_filename_helpers_id (ts : Nat) (r : List Char)
    (hc : CleanName r) (hne : r ≠ []) : sanitize_filename_helpers ts r = r := by
  unfold sanitize_filename_helpers
  rw [sanitizeCore_id r hc, if_neg hne]

/-- Appending ".py" to a clean non-empty string keeps it clean. -/
theorem clean_append_py (s : List Char) (h : CleanName s) (hne : s ≠ []) :
    CleanName (s ++ ".py".toList) := by
  obtain ⟨h1, h2, h3, h4⟩ := h
  refine ⟨?_, ?_, ?_, ?_⟩
  · intro c hc
    rcases List.mem_append.mp hc with hm | hm
    · exact h1 c hm
    · fin_cases hm <;> rfl
  · refine List.Chain'.append h2 (noDU_of_no_und _ (by decide)) ?_
    intro x _ y hy
    have hy0 : '.' = y := by simpa using hy
    exact fun ⟨_, hy'⟩ => by rw [← hy0] at hy'; exact absurd hy' (by decide)
  · cases s with
    | nil => exact absurd rfl hne
    | cons c t =>
      rw [List.cons_append, List.head?_cons]
      simpa using h3
  · rw [List.getLast?_append, show (".py".toList).getLast? = some 'y' from rfl,
      Option.or_some]
    decide

/-- The base value of the validator sanitizer is clean and non-empty. -/
theorem validatorsBase_clean (x : List Char) :
    CleanName (validatorsBase x) ∧ validatorsBase x ≠ [] := by
  unfold validatorsBase
  split_ifs with h
  · exact ⟨⟨by decide, noDU_of_no_und _ (by decide), by decide, by decide⟩, by decide⟩
  · exact ⟨sanitizeCore_clean x, h⟩

/-- The validator sanitizer yields a clean, non-empty, ".py"-suffixed
string. -/
theorem sanitize_filename_validators_clean (x : List Char) :
    CleanName (sanitize_filename_validators x) ∧
      sanitize_filename_validators x ≠ [] ∧
      ".py".toList.isSuffixOf (sanitize_filename_validators x) = true := by
  obtain ⟨hc, hne⟩ := validatorsBase_clean x
  unfold sanitize_filename_validators
  split_ifs with h
  · exact ⟨hc, hne, h⟩
  · refine ⟨clean_append_py _ hc hne,
      List.append_ne_nil_of_right_ne_nil _ (by decide), ?_⟩
    simp

/-- The validator sanitizer is the identity on clean ".py"-suffixed
strings. -/
theorem sanitize_filename_validators_id (r : List Char) (hc : CleanName r)
    (hne : r ≠ []) (hs : ".py".toList.isSuffixOf r = true) :
    sanitize_filename_validators r = r := by
  unfold sanitize_filename_validators validatorsBase
  rw [sanitizeCore_id r hc]
  simp only [if_neg hne]
  rw [if_pos hs]

/-- Claim C8: both sanitizers are idempotent; neither result contains a
replaced character nor a leading or trailing underscore; the validator
variant always ends in ".py". -/
theorem sanitize_filename_claim (ts ts2 : Nat) (x : List Char) :
    sanitize_filename_helpers ts2 (sanitize_filename_helpers ts x) =
      sanitize_filename_helpers ts x ∧
    sanitize_filename_validators (sanitize_filename_validators x) =
      sanitize_filename_validators x ∧
    (∀ c ∈ sanitize_filename_helpers ts x, isBadFileChar c = false) ∧
    (sanitize_filename_helpers ts x).head? ≠ some '_' ∧
    (sanitize_filename_helpers ts x).getLast? ≠ some '_' ∧
    (∀ c ∈ sanitize_filename_validators x, isBadFileChar c = false) ∧
    (sanitize_filename_validators x).head? ≠ some '_' ∧
    (sanitize_filename_validators x).getLast? ≠ some '_' ∧
    ".py".toList.isSuffixOf (sanitize_filename_validators x) = true := by
  have hh := sanitize_filename_helpers_clean ts x
  have hv := sanitize_filename_validators_clean x
  exact ⟨sanitize_filename_helpers_id ts2 _ hh (sanitize_filename_helpers_ne_nil ts x),
    sanitize_filename_validators_id _ hv.1 hv.2.1 hv.2.2,
    hh.1, hh.2.2.1, hh.2.2.2, hv.1.1, hv.1.2.2.1, hv.1.2.2.2, hv.2.2⟩

/-! ## Common Python string helpers used by the agents -/

/-- ASCII fragment of Python per-character lower-casing. -/
def pyLower (c : Char) : Char :=
  if 'A' ≤ c ∧ c ≤ 'Z' then Char.ofNat (c.toNat + 32) else c

/-- Python `str.lower()` (ASCII fragment). -/
def lowerStr (l : List Char) : List Char := l.map pyLower

/-- Python `" ".join(parts)`. -/
def joinSpace : List (List Char) → List Char
  | [] => []
  | [x] => x
  | x :: y :: rest => x ++ ' ' :: joinSpace (y :: rest)

/-! ## Domain model (`src/backend/src/models`) -/

/-- The `TestPriority` enum. -/
inductive TestPriority where
  | CRITICAL
  | NORMAL
  | LOW
deriving DecidableEq, BEq

/-- The `.value` string of each `TestPriority` member. -/
def TestPriority.value : TestPriority → String
  | .CRITICAL => "CRITICAL"
  | .NORMAL => "NORMAL"
  | .LOW => "LOW"

/-- The fields of `TestCaseDTO` the verified agents read.  The UUID id is
modelled as a natural number. -/
structure TestCaseDTO where
  id : Nat
  title : List Char
  feature : List Char
  story : List Char
  expected_result : List Char
  steps : List (List Char)
  priority : TestPriority
  updated_at : Option Nat
deriving DecidableEq

/-! ## `difflib.SequenceMatcher` (CPython), as used by
`OptimizationAgent._similarity` with `isjunk=None`.

The embedding follows the CPython source: the `b2j` index (with the
autojunk popularity filter for `len(b) >= 200`), the row dynamic program
of `find_longest_match`, and the two non-junk extension loops.  The two
junk extension loops of CPython are omitted because with `isjunk=None`
the junk set is empty and their guards are never true.  `ratio` sums the
sizes of all matching blocks found by the recursive region splitting of
`get_matching_blocks`; merging adjacent blocks does not change the sum,
so the recursion computes the same total. -/

/-- All positions of a character in `b`, ascending. -/
def positionsOf (b : List Char) (c : Char) : List Nat :=
  (List.range b.length).filter (fun j => b.getD j ' ' == c)

/-- The autojunk popularity cutoff (`len(b) // 100 + 1`). -/
def popularCut (b : List Char) : Nat := b.length / 100 + 1

/-- A character is popular when `b` has at least 200 elements and the
character occurs more than the cutoff. -/
def isPopular (b : List Char) (c : Char) : Bool :=
  decide (200 ≤ b.length) && decide (popularCut b < (positionsOf b c).length)

/-- The `b2j` mapping: positions of each non-popular character. -/
def b2jOf (b : List Char) (c : Char) : List Nat :=
  if isPopular b c then [] else positionsOf b c

/-- A candidate matching block (`besti`, `bestj`, `bestsize`). -/
structure BestB where
  i : Nat
  j : Nat
  k : Nat
deriving DecidableEq

/-- The new run length at position `j`:
`newj2len[j] = j2len.get(j-1, 0) + 1` (the Python dict lookup at -1 when
`j = 0` misses and defaults to 0). -/
def rowVal (prev : Nat → Nat) (j : Nat) : Nat :=
  (if j = 0 then 0 else prev (j - 1)) + 1

/-- Store a value in the functional row map. -/
def updMap (cur : Nat → Nat) (j v : Nat) : Nat → Nat :=
  fun j' => if j' = j then v else cur j'

/-- Update the best block when a longer run is found
(`if k > bestsize: besti, bestj, bestsize = i-k+1, j-k+1, k`). -/
def updBest (st : BestB) (i j v : Nat) : BestB :=
  if st.k < v then ⟨i + 1 - v, j + 1 - v, v⟩ else st

/-- The inner loop of `find_longest_match`: one row of the dynamic
program, walking the ascending position list of `a[i]` in `b`.  `prev` is
the previous row (`j2len`), `cur` the row being built (`newj2len`); both
default to 0 exactly like the Python dict lookups.  A position below `blo`
is skipped (`continue`), a position at or past `bhi` stops the row
(`break`). -/
def innerLoop (prev : Nat → Nat) (i blo bhi : Nat) :
    List Nat → (Nat → Nat) → BestB → ((Nat → Nat) × BestB)
  | [], cur, st => (cur, st)
  | j :: rest, cur, st =>
    if j < blo then innerLoop prev i blo bhi rest cur st
    else if bhi ≤ j then (cur, st)
    else innerLoop prev i blo bhi rest (updMap cur j (rowVal prev j))
      (updBest st i j (rowVal prev j))

/-- The outer loop of `find_longest_match` over the rows `alo..ahi-1`. -/
def outerLoop (b2j : Char → List Nat) (a : List Char) (blo bhi : Nat) :
    List Nat → (Nat → Nat) → BestB → BestB
  | [], _, st => st
  | i :: rest, prev, st =>
    let p := innerLoop prev i blo bhi (b2j (a.getD i ' ')) (fun _ => 0) st
    outerLoop b2j a blo bhi rest p.1 p.2

/-- The backward extension loop of `find_longest_match` (the junk guard is
vacuous for `isjunk=None`). -/
def extendBack (a b : List Char) (alo blo : Nat) : Nat → BestB → BestB
  | 0, st => st
  | fuel + 1, st =>
    if alo < st.i ∧ blo < st.j ∧ a.getD (st.i - 1) ' ' = b.getD (st.j - 1) ' '
    then extendBack a b alo blo fuel ⟨st.i - 1, st.j - 1, st.k + 1⟩
    else st

/-- The forward extension loop of `find_longest_match`. -/
def extendFwd (a b : List Char) (ahi bhi : Nat) : Nat → BestB → BestB
  | 0, st => st
  | fuel + 1, st =>
    if st.i + st.k < ahi ∧ st.j + st.k < bhi ∧
        a.getD (st.i + st.k) ' ' = b.getD (st.j + st.k) ' '
    then extendFwd a b ahi bhi fuel ⟨st.i, st.j, st.k + 1⟩
    else st

/-- `SequenceMatcher.find_longest_match` on the region
`a[alo:ahi]`, `b[blo:bhi]`. -/
def findLongestMatch (a b : List Char) (alo ahi blo bhi : Nat) : BestB :=
  let st1 := outerLoop (b2jOf b) a blo bhi (List.range' alo (ahi - alo))
    (fun _ => 0) ⟨alo, blo, 0⟩
  let st2 := extendBack a b alo blo st1.i st1
  extendFwd a b ahi bhi ahi st2

/-- Total size of all matching blocks of a region: the recursive region
splitting of `get_matching_blocks`, with fuel for termination. -/
def matchTotal (a b : List Char) : Nat → Nat → Nat → Nat → Nat → Nat
  | 0, _, _, _, _ => 0
  | fuel + 1, alo, ahi, blo, bhi =>
    let m := findLongestMatch a b alo ahi blo bhi
    if m.k = 0 then 0
    else m.k + matchTotal a b fuel alo m.i blo m.j +
      matchTotal a b fuel (m.i + m.k) ahi (m.j + m.k) bhi

/-- Total matched size over the full strings. -/
def matchesTotal (a b : List Char) : Nat :=
  matchTotal a b (a.length + b.length + 1) 0 a.length 0 b.length

/-- `SequenceMatcher.ratio`: `2*M / (len(a)+len(b))`, and 1.0 for two
empty strings.  Floats are modelled as rationals. -/
def seqRatio (a b : List Char) : ℚ :=
  if a.length + b.length = 0 then 1
  else 2 * (matchesTotal a b : ℚ) / ((a.length : ℚ) + (b.length : ℚ))

/-- `OptimizationAgent._similarity`:
`0.6 * ratio(lower titles) + 0.4 * ratio(lower joined steps)`. -/
def similarity (first second : TestCaseDTO) : ℚ :=
  seqRatio (lowerStr first.title) (lowerStr second.title) * (6/10) +
    seqRatio (lowerStr (joinSpace first.steps)) (lowerStr (joinSpace second.steps)) *
      (4/10)

/-- Test case titled "tide", no steps. -/
def tcTide : TestCaseDTO :=
  ⟨1, "tide".toList, [], [], [], [], TestPriority.NORMAL, none⟩

/-- Test case titled "diet", no steps. -/
def tcDiet : TestCaseDTO :=
  ⟨2, "diet".toList, [], [], [], [], TestPriority.NORMAL, none⟩

/-- Evaluation bridge for `seqRatio` at concrete values. -/
theorem seqRatio_eval (a b : List Char) (m la lb : Nat) (hm : matchesTotal a b = m)
    (ha : a.length = la) (hb : b.length = lb) (h0 : ¬(la + lb = 0)) :
    seqRatio a b = 2 * (m : ℚ) / ((la : ℚ) + (lb : ℚ)) := by
  unfold seqRatio
  rw [hm, ha, hb, if_neg h0]

/-- Claim C7, counterexample: the similarity score is not symmetric.  On
the titles "tide" and "diet" (no steps) the matcher finds 1 matched
character one way and 2 the other, so the scores are 11/20 and 7/10. -/
theorem similarity_not_symmetric :
    similarity tcTide tcDiet = 11/20 ∧ similarity tcDiet tcTide = 7/10 ∧
    ¬(similarity tcTide tcDiet = similarity tcDiet tcTide) := by
  have hA : similarity tcTide tcDiet = 11/20 := by
    unfold similarity
    rw [seqRatio_eval (lowerStr tcTide.title) (lowerStr tcDiet.title) 1 4 4
        (by decide) (by decide) (by decide) (by decide),
      show seqRatio (lowerStr (joinSpace tcTide.steps))
        (lowerStr (joinSpace tcDiet.steps)) = 1 from rfl]
    norm_num
  have hB : similarity tcDiet tcTide = 7/10 := by
    unfold similarity
    rw [seqRatio_eval (lowerStr tcDiet.title) (lowerStr tcTide.title) 2 4 4
        (by decide) (by decide) (by decide) (by decide),
      show seqRatio (lowerStr (joinSpace tcDiet.steps))
        (lowerStr (joinSpace tcTide.steps)) = 1 from rfl]
    norm_num
  refine ⟨hA, hB, ?_⟩
  rw [hA, hB]
  norm_num

/-! ### Boundedness of the matcher -/

/-- The block returned for a region stays inside the region. -/
def InvB (alo ahi blo bhi : Nat) (st : BestB) : Prop :=
  alo ≤ st.i ∧ blo ≤ st.j ∧ st.i + st.k ≤ ahi ∧ st.j + st.k ≤ bhi

/-- Row-map invariant: entries are bounded by the number of processed rows
and by their own position inside the window. -/
def InvMap (blo bhi rows : Nat) (f : Nat → Nat) : Prop :=
  ∀ j, f j ≤ rows ∧ (f j ≠ 0 → blo ≤ j ∧ j < bhi ∧ blo + f j ≤ j + 1)

theorem innerLoop_bounds (prev : Nat → Nat) (i blo bhi alo ahi rows : Nat)
    (hrow : alo + rows = i) (hi : i < ahi) :
    ∀ (js : List Nat) (cur : Nat → Nat) (st : BestB),
      InvMap blo bhi rows prev → InvMap blo bhi (rows + 1) cur →
      InvB alo ahi blo bhi st →
      InvMap blo bhi (rows + 1) (innerLoop prev i blo bhi js cur st).1 ∧
        InvB alo ahi blo bhi (innerLoop prev i blo bhi js cur st).2
  | [], cur, st, _, hcur, hst => ⟨hcur, hst⟩
  | j :: rest, cur, st, hprev, hcur, hst => by
    rw [innerLoop]
    by_cases hblo : j < blo
    · rw [if_pos hblo]
      exact innerLoop_bounds prev i blo bhi alo ahi rows hrow hi rest cur st hprev hcur hst
    · rw [if_neg hblo]
      by_cases hbhi : bhi ≤ j
      · rw [if_pos hbhi]
        exact ⟨hcur, hst⟩
      · rw [if_neg hbhi]
        have hk1 : rowVal prev j ≤ rows + 1 := by
          unfold rowVal
          split_ifs with h0
          · omega
          · have := (hprev (j - 1)).1
            omega
        have hk2 : blo + rowVal prev j ≤ j + 1 := by
          unfold rowVal
          split_ifs with h0
          · omega
          · by_cases hz : prev (j - 1) = 0
            · rw [hz]
              omega
            · have := ((hprev (j - 1)).2 hz).2.2
              omega
        refine innerLoop_bounds prev i blo bhi alo ahi rows hrow hi rest _ _ hprev ?_ ?_
        · intro j'
          unfold updMap
          by_cases hj' : j' = j
          · subst hj'
            rw [if_pos rfl]
            exact ⟨hk1, fun _ => ⟨by omega, by omega, hk2⟩⟩
          · rw [if_neg hj']
            exact hcur j'
        · unfold updBest
          split_ifs with hupd
          · exact ⟨by dsimp only; omega, by dsimp only; omega,
              by dsimp only; omega, by dsimp only; omega⟩
          · exact hst

theorem outerLoop_bounds (b2j : Char → List Nat) (a : List Char)
    (blo bhi alo ahi : Nat) :
    ∀ (n i : Nat) (prev : Nat → Nat) (st : BestB), alo ≤ i → i + n = ahi →
      InvMap blo bhi (i - alo) prev → InvB alo ahi blo bhi st →
      InvB alo ahi blo bhi (outerLoop b2j a blo bhi (List.range' i n) prev st)
  | 0, i, prev, st, _, _, _, hst => hst
  | n + 1, i, prev, st, hi1, hi2, hprev, hst => by
    rw [List.range'_succ, outerLoop]
    have h := innerLoop_bounds prev i blo bhi alo ahi (i - alo) (by omega) (by omega)
      (b2j (a.getD i ' ')) (fun _ => 0) st hprev
      (fun j => ⟨Nat.zero_le _, fun hz => (hz rfl).elim⟩) hst
    have hmap : InvMap blo bhi (i + 1 - alo)
        (innerLoop prev i blo bhi (b2j (a.getD i ' ')) (fun _ => 0) st).1 := by
      have := h.1
      have he : i - alo + 1 = i + 1 - alo := by omega
      rwa [he] at this
    exact outerLoop_bounds b2j a blo bhi alo ahi n (i + 1) _ _ (by omega) (by omega)
      hmap h.2

theorem extendBack_bounds (a b : List Char) (alo blo ahi bhi : Nat) :
    ∀ (fuel : Nat) (st : BestB), InvB alo ahi blo bhi st →
      InvB alo ahi blo bhi (extendBack a b alo blo fuel st)
  | 0, st, hst => hst
  | fuel + 1, st, hst => by
    rw [extendBack]
    split_ifs with h
    · obtain ⟨h1, h2, _⟩ := h
      obtain ⟨g1, g2, g3, g4⟩ := hst
      refine extendBack_bounds a b alo blo ahi bhi fuel _ ⟨?_, ?_, ?_, ?_⟩
      · show alo ≤ st.i - 1
        omega
      · show blo ≤ st.j - 1
        omega
      · show st.i - 1 + (st.k + 1) ≤ ahi
        omega
      · show st.j - 1 + (st.k + 1) ≤ bhi
        omega
    · exact hst

theorem extendFwd_bounds (a b : List Char) (ahi bhi alo blo : Nat) :
    ∀ (fuel : Nat) (st : BestB), InvB alo ahi blo bhi st →
      InvB alo ahi blo bhi (extendFwd a b ahi bhi fuel st)
  | 0, st, hst => hst
  | fuel + 1, st, hst => by
    rw [extendFwd]
    split_ifs with h
    · obtain ⟨h1, h2, _⟩ := h
      obtain ⟨g1, g2, g3, g4⟩ := hst
      refine extendFwd_bounds a b ahi bhi alo blo fuel _ ⟨?_, ?_, ?_, ?_⟩
      · show alo ≤ st.i
        omega
      · show blo ≤ st.j
        omega
      · show st.i + (st.k + 1) ≤ ahi
        omega
      · show st.j + (st.k + 1) ≤ bhi
        omega
    · exact hst

/-- The block returned by `find_longest_match` stays inside the region. -/
theorem findLongestMatch_bounds (a b : List Char) (alo ahi blo bhi : Nat)
    (h1 : alo ≤ ahi) (h2 : blo ≤ bhi) :
    InvB alo ahi blo bhi (findLongestMatch a b alo ahi blo bhi) := by
  unfold findLongestMatch
  refine extendFwd_bounds a b ahi bhi alo blo _ _
    (extendBack_bounds a b alo blo ahi bhi _ _
      (outerLoop_bounds (b2jOf b) a blo bhi alo ahi (ahi - alo) alo _ _
        (le_refl alo) (by omega)
        (fun j => ⟨Nat.zero_le _, fun hz => (hz rfl).elim⟩)
        ⟨le_refl alo, le_refl blo, (by show alo + 0 ≤ ahi; omega),
          (by show blo + 0 ≤ bhi; omega)⟩))

/-- The matched total of a region never exceeds either side of the
region. -/
theorem matchTotal_le (a b : List Char) :
    ∀ (fuel alo ahi blo bhi : Nat), alo ≤ ahi → blo ≤ bhi →
      matchTotal a b fuel alo ahi blo bhi ≤ ahi - alo ∧
        matchTotal a b fuel alo ahi blo bhi ≤ bhi - blo
  | 0, alo, ahi, blo, bhi, _, _ => ⟨Nat.zero_le _, Nat.zero_le _⟩
  | fuel + 1, alo, ahi, blo, bhi, ha, hb => by
    rw [matchTotal]
    have hm := findLongestMatch_bounds a b alo ahi blo bhi ha hb
    obtain ⟨hm1, hm2, hm3, hm4⟩ := hm
    split_ifs with hk
    · exact ⟨Nat.zero_le _, Nat.zero_le _⟩
    · have hL := matchTotal_le a b fuel alo (findLongestMatch a b alo ahi blo bhi).i
        blo (findLongestMatch a b alo ahi blo bhi).j (by omega) (by omega)
      have hR := matchTotal_le a b fuel
        ((findLongestMatch a b alo ahi blo bhi).i + (findLongestMatch a b alo ahi blo bhi).k)
        ahi
        ((findLongestMatch a b alo ahi blo bhi).j + (findLongestMatch a b alo ahi blo bhi).k)
        bhi (by omega) (by omega)
      exact ⟨by omega, by omega⟩

/-- The matched total never exceeds either string length. -/
theorem matchesTotal_le (a b : List Char) :
    matchesTotal a b ≤ a.length ∧ matchesTotal a b ≤ b.length := by
  have h := matchTotal_le a b (a.length + b.length + 1) 0 a.length 0 b.length
    (Nat.zero_le _) (Nat.zero_le _)
  simpa using h

/-! ### Full self-match on a diagonal region

For `SequenceMatcher(None, s, s)` the matcher always returns the whole
region: the dynamic program only ever selects diagonal blocks (the first
maximal block of equal strings lies on the diagonal), and the two
extension loops then grow a diagonal block to the full window. -/

/-- Length of the diagonal run of non-popular positions of `s` ending at
`j`, inside the window `[lo, hi)`. -/
def diagD (s : List Char) (lo hi : Nat) : Nat → Nat
  | 0 => if lo = 0 ∧ 0 < hi ∧ isPopular s (s.getD 0 ' ') = false then 1 else 0
  | j + 1 =>
    if lo ≤ j + 1 ∧ j + 1 < hi ∧ isPopular s (s.getD (j + 1) ' ') = false
    then diagD s lo hi j + 1 else 0

theorem diagD_eq_zero (s : List Char) (lo hi j : Nat)
    (h : j < lo ∨ hi ≤ j ∨ isPopular s (s.getD j ' ') = true) :
    diagD s lo hi j = 0 := by
  cases j with
  | zero =>
    rw [diagD, if_neg]
    rintro ⟨h1, h2, h3⟩
    rcases h with h | h | h
    · omega
    · omega
    · rw [h3] at h
      cases h
  | succ j =>
    rw [diagD, if_neg]
    rintro ⟨h1, h2, h3⟩
    rcases h with h | h | h
    · omega
    · omega
    · rw [h3] at h
      cases h

theorem diagD_eq_succ (s : List Char) (lo hi j : Nat) (h1 : lo ≤ j) (h2 : j < hi)
    (h3 : isPopular s (s.getD j ' ') = false) :
    diagD s lo hi j = (if j = 0 then 0 else diagD s lo hi (j - 1)) + 1 := by
  cases j with
  | zero =>
    rw [diagD, if_pos ⟨by omega, by omega, h3⟩, if_pos rfl]
  | succ j =>
    rw [diagD, if_pos ⟨h1, h2, h3⟩, if_neg (Nat.succ_ne_zero j), Nat.add_sub_cancel]

/-- Invariant of the previous row `j2len` before processing row `i`:
entries are bounded by the diagonal run at their position; after the first
row they are bounded by the diagonal run at the previous row, with the
diagonal entry exact. -/
def DPrevInv (s : List Char) (lo hi i : Nat) (prev : Nat → Nat) : Prop :=
  (∀ j, prev j ≤ diagD s lo hi j) ∧
    ((i = lo ∧ ∀ j, prev j = 0) ∨
      (lo < i ∧ (∀ j, prev j ≤ diagD s lo hi (i - 1)) ∧
        prev (i - 1) = diagD s lo hi (i - 1)))

/-- Invariant of the best block before processing row `i`: it is diagonal
and at least as long as every completed diagonal run. -/
def DBestInv (s : List Char) (lo hi i : Nat) (st : BestB) : Prop :=
  st.i = st.j ∧ ∀ j, lo ≤ j → j < i → diagD s lo hi j ≤ st.k

/-- Invariant of the row being built. -/
def DCurInv (s : List Char) (lo hi i : Nat) (cur : Nat → Nat) : Prop :=
  ∀ j, cur j ≤ diagD s lo hi j ∧ cur j ≤ diagD s lo hi i

theorem rowVal_le_diag_row (s : List Char) (lo hi i j : Nat) (prev : Nat → Nat)
    (hprev : DPrevInv s lo hi i prev) (hj1 : lo ≤ j) (hj2 : j < hi)
    (hpopj : isPopular s (s.getD j ' ') = false) :
    rowVal prev j ≤ diagD s lo hi j := by
  rw [diagD_eq_succ s lo hi j hj1 hj2 hpopj]
  unfold rowVal
  split_ifs with h0
  · omega
  · have := hprev.1 (j - 1)
    omega

theorem rowVal_le_diag_i (s : List Char) (lo hi i j : Nat) (prev : Nat → Nat)
    (hprev : DPrevInv s lo hi i prev) (hi1 : lo ≤ i) (hi2 : i < hi)
    (hpop : isPopular s (s.getD i ' ') = false) :
    rowVal prev j ≤ diagD s lo hi i := by
  rw [diagD_eq_succ s lo hi i hi1 hi2 hpop]
  unfold rowVal
  rcases hprev.2 with ⟨_, hz⟩ | ⟨hlo, hb, _⟩
  · have hz' : (if j = 0 then 0 else prev (j - 1)) = 0 := by
      split_ifs
      · rfl
      · exact hz _
    rw [hz']
    split_ifs <;> omega
  · rw [if_neg (show ¬(i = 0) from by omega)]
    have := hb (j - 1)
    split_ifs with h0 <;> omega

theorem rowVal_diag_exact (s : List Char) (lo hi i : Nat) (prev : Nat → Nat)
    (hprev : DPrevInv s lo hi i prev) (hi1 : lo ≤ i) (hi2 : i < hi)
    (hpop : isPopular s (s.getD i ' ') = false) :
    rowVal prev i = diagD s lo hi i := by
  rw [diagD_eq_succ s lo hi i hi1 hi2 hpop]
  unfold rowVal
  by_cases h0 : i = 0
  · rw [if_pos h0, if_pos h0]
  · rw [if_neg h0, if_neg h0]
    rcases hprev.2 with ⟨hlo, hz⟩ | ⟨hlo, _, hex⟩
    · rw [hz (i - 1), diagD_eq_zero s lo hi (i - 1) (Or.inl (by omega))]
    · rw [hex]

/-- Characterization of membership in the position index. -/
theorem mem_positionsOf (b : List Char) (c : Char) (j : Nat) :
    j ∈ positionsOf b c ↔ j < b.length ∧ b.getD j ' ' = c := by
  unfold positionsOf
  rw [List.mem_filter, List.mem_range]
  simp

/-- Before the diagonal position, a row of a self-comparison never updates
the best block. -/
theorem inner_pre_diag (s : List Char) (lo hi i : Nat) (prev : Nat → Nat)
    (hprev : DPrevInv s lo hi i prev) (hi1 : lo ≤ i) (hi2 : i < hi)
    (hpop : isPopular s (s.getD i ' ') = false) :
    ∀ (js : List Nat) (cur : Nat → Nat) (st : BestB),
      (∀ j ∈ js, j < i ∧ s.getD j ' ' = s.getD i ' ') →
      DCurInv s lo hi i cur → DBestInv s lo hi i st →
      (innerLoop prev i lo hi js cur st).2 = st ∧
        DCurInv s lo hi i (innerLoop prev i lo hi js cur st).1
  | [], cur, st, _, hcur, _ => ⟨rfl, hcur⟩
  | j :: rest, cur, st, hjs, hcur, hbest => by
    have hj := hjs j (by simp)
    rw [innerLoop]
    by_cases hblo : j < lo
    · rw [if_pos hblo]
      exact inner_pre_diag s lo hi i prev hprev hi1 hi2 hpop rest cur st
        (fun j' hj' => hjs j' (by simp [hj'])) hcur hbest
    · rw [if_neg hblo]
      rw [if_neg (by omega : ¬ hi ≤ j)]
      have hpopj : isPopular s (s.getD j ' ') = false := by rw [hj.2]; exact hpop
      have hle : rowVal prev j ≤ diagD s lo hi j :=
        rowVal_le_diag_row s lo hi i j prev hprev (by omega) (by omega) hpopj
      have hnoupd : updBest st i j (rowVal prev j) = st := by
        unfold updBest
        rw [if_neg]
        have := hbest.2 j (by omega) hj.1
        omega
      rw [hnoupd]
      refine inner_pre_diag s lo hi i prev hprev hi1 hi2 hpop rest _ st
        (fun j' hj' => hjs j' (by simp [hj'])) ?_ hbest
      intro j'
      unfold updMap
      by_cases hjj : j' = j
      · subst hjj
        rw [if_pos rfl]
        exact ⟨hle, rowVal_le_diag_i s lo hi i j' prev hprev hi1 hi2 hpop⟩
      · rw [if_neg hjj]
        exact hcur j'

/-- After the diagonal position, a row of a self-comparison never updates
the best block and never touches positions at or below the diagonal. -/
theorem inner_post_diag (s : List Char) (lo hi i : Nat) (prev : Nat → Nat)
    (hprev : DPrevInv s lo hi i prev) (hi1 : lo ≤ i) (hi2 : i < hi)
    (hpop : isPopular s (s.getD i ' ') = false) :
    ∀ (js : List Nat) (cur : Nat → Nat) (st : BestB),
      (∀ j ∈ js, i < j ∧ s.getD j ' ' = s.getD i ' ') →
      DCurInv s lo hi i cur → diagD s lo hi i ≤ st.k →
      (innerLoop prev i lo hi js cur st).2 = st ∧
        DCurInv s lo hi i (innerLoop prev i lo hi js cur st).1 ∧
        (∀ j', j' ≤ i → (innerLoop prev i lo hi js cur st).1 j' = cur j')
  | [], cur, st, _, hcur, _ => ⟨rfl, hcur, fun _ _ => rfl⟩
  | j :: rest, cur, st, hjs, hcur, hk => by
    have hj := hjs j (by simp)
    rw [innerLoop]
    rw [if_neg (by omega : ¬ j < lo)]
    by_cases hbhi : hi ≤ j
    · rw [if_pos hbhi]
      exact ⟨rfl, hcur, fun _ _ => rfl⟩
    · rw [if_neg hbhi]
      have hpopj : isPopular s (s.getD j ' ') = false := by rw [hj.2]; exact hpop
      have hle : rowVal prev j ≤ diagD s lo hi j :=
        rowVal_le_diag_row s lo hi i j prev hprev (by omega) (by omega) hpopj
      have hle2 : rowVal prev j ≤ diagD s lo hi i :=
        rowVal_le_diag_i s lo hi i j prev hprev hi1 hi2 hpop
      have hnoupd : updBest st i j (rowVal prev j) = st := by
        unfold updBest
        rw [if_neg]
        omega
      rw [hnoupd]
      have hrec := inner_post_diag s lo hi i prev hprev hi1 hi2 hpop rest
        (updMap cur j (rowVal prev j)) st
        (fun j' hj' => hjs j' (by simp [hj'])) ?_ hk
      · refine ⟨hrec.1, hrec.2.1, ?_⟩
        intro j' hj'
        rw [hrec.2.2 j' hj']
        unfold updMap
        rw [if_neg (by omega)]
      · intro j'
        unfold updMap
        by_cases hjj : j' = j
        · subst hjj
          rw [if_pos rfl]
          exact ⟨hle, hle2⟩
        · rw [if_neg hjj]
          exact hcur j'

/-- Processing an appended position list splits into two passes when the
first part never triggers the break. -/
theorem innerLoop_append (prev : Nat → Nat) (i blo bhi : Nat) :
    ∀ (l1 l2 : List Nat) (cur : Nat → Nat) (st : BestB), (∀ j ∈ l1, j < bhi) →
      innerLoop prev i blo bhi (l1 ++ l2) cur st =
        innerLoop prev i blo bhi l2 (innerLoop prev i blo bhi l1 cur st).1
          (innerLoop prev i blo bhi l1 cur st).2
  | [], l2, cur, st, _ => by rw [List.nil_append, innerLoop]
  | j :: l1, l2, cur, st, h => by
    rw [List.cons_append, innerLoop, innerLoop]
    by_cases hblo : j < blo
    · rw [if_pos hblo, if_pos hblo]
      exact innerLoop_append prev i blo bhi l1 l2 cur st
        (fun j' hj' => h j' (by simp [hj']))
    · rw [if_neg hblo, if_neg hblo]
      rw [if_neg (by have := h j (by simp); omega : ¬ bhi ≤ j),
        if_neg (by have := h j (by simp); omega : ¬ bhi ≤ j)]
      exact innerLoop_append prev i blo bhi l1 l2 _ _
        (fun j' hj' => h j' (by simp [hj']))

/-- The positions of the character at `i` split into those before `i`,
`i` itself, and those after `i`. -/
theorem positionsOf_split (s : List Char) (i : Nat) (hlen : i < s.length) :
    positionsOf s (s.getD i ' ') =
      ((List.range i).filter (fun j => s.getD j ' ' == s.getD i ' ')) ++
        i :: ((List.range' (i + 1) (s.length - i - 1)).filter
          (fun j => s.getD j ' ' == s.getD i ' ')) := by
  unfold positionsOf
  have h1 : List.range s.length = List.range i ++ List.range' i (s.length - i) := by
    rw [List.range_eq_range', List.range_eq_range']
    conv_lhs => rw [show s.length = (s.length - i) + i from by omega]
    have h2 := List.range'_append_1 0 i (s.length - i)
    simp only [Nat.zero_add] at h2
    exact h2.symm
  rw [h1, List.filter_append]
  congr 1
  rw [show s.length - i = (s.length - i - 1) + 1 from by omega, List.range'_succ,
    List.filter_cons]
  simp

/-- One full row of the self-comparison dynamic program preserves the
diagonal invariants. -/
theorem inner_row_diag (s : List Char) (lo hi i : Nat) (prev : Nat → Nat) (st : BestB)
    (hi1 : lo ≤ i) (hi2 : i < hi) (hlen : hi ≤ s.length)
    (hprev : DPrevInv s lo hi i prev) (hbest : DBestInv s lo hi i st) :
    DPrevInv s lo hi (i + 1)
      (innerLoop prev i lo hi (b2jOf s (s.getD i ' ')) (fun _ => 0) st).1 ∧
    DBestInv s lo hi (i + 1)
      (innerLoop prev i lo hi (b2jOf s (s.getD i ' ')) (fun _ => 0) st).2 := by
  by_cases hpop : isPopular s (s.getD i ' ') = true
  · rw [show b2jOf s (s.getD i ' ') = [] from by unfold b2jOf; rw [if_pos hpop]]
    rw [innerLoop]
    have hdi : diagD s lo hi i = 0 := diagD_eq_zero s lo hi i (Or.inr (Or.inr hpop))
    constructor
    · refine ⟨fun j => Nat.zero_le _, Or.inr ⟨by omega, fun j => ?_, ?_⟩⟩
      · show 0 ≤ diagD s lo hi (i + 1 - 1)
        omega
      · show (0 : Nat) = diagD s lo hi (i + 1 - 1)
        simp only [Nat.add_sub_cancel]
        omega
    · refine ⟨hbest.1, fun j hj1 hj2 => ?_⟩
      by_cases hji : j = i
      · subst hji
        rw [hdi]
        omega
      · exact hbest.2 j hj1 (by omega)
  · have hpop' : isPopular s (s.getD i ' ') = false := by
      cases hx : isPopular s (s.getD i ' ')
      · rfl
      · exact absurd hx hpop
    rw [show b2jOf s (s.getD i ' ') = positionsOf s (s.getD i ' ') from by
      unfold b2jOf; rw [if_neg (by rw [hpop']; simp)]]
    rw [positionsOf_split s i (by omega)]
    rw [innerLoop_append prev i lo hi
      ((List.range i).filter (fun j => s.getD j ' ' == s.getD i ' '))
      (i :: ((List.range' (i + 1) (s.length - i - 1)).filter
        (fun j => s.getD j ' ' == s.getD i ' ')))
      (fun _ => 0) st (by
        intro j hj
        rw [List.mem_filter, List.mem_range] at hj
        exact Nat.lt_trans hj.1 hi2)]
    have hpre := inner_pre_diag s lo hi i prev hprev hi1 hi2 hpop' _ (fun _ => 0) st
      (by
        intro j hj
        rw [List.mem_filter, List.mem_range] at hj
        exact ⟨hj.1, eq_of_beq hj.2⟩)
      (fun j => ⟨Nat.zero_le _, Nat.zero_le _⟩) hbest
    rw [hpre.1]
    rw [innerLoop]
    rw [if_neg (by omega : ¬ i < lo), if_neg (by omega : ¬ hi ≤ i)]
    have hval := rowVal_diag_exact s lo hi i prev hprev hi1 hi2 hpop'
    have hst2 : (updBest st i i (rowVal prev i)).i = (updBest st i i (rowVal prev i)).j ∧
        diagD s lo hi i ≤ (updBest st i i (rowVal prev i)).k ∧
        st.k ≤ (updBest st i i (rowVal prev i)).k := by
      unfold updBest
      split_ifs with hupd
      · exact ⟨rfl, by dsimp only; omega, by dsimp only; omega⟩
      · exact ⟨hbest.1, by omega, le_refl _⟩
    have hpost := inner_post_diag s lo hi i prev hprev hi1 hi2 hpop'
      ((List.range' (i + 1) (s.length - i - 1)).filter
        (fun j => s.getD j ' ' == s.getD i ' '))
      (updMap (innerLoop prev i lo hi
        ((List.range i).filter (fun j => s.getD j ' ' == s.getD i ' '))
        (fun _ => 0) st).1 i (rowVal prev i))
      (updBest st i i (rowVal prev i))
      (by
        intro j hj
        rw [List.mem_filter, List.mem_range'_1] at hj
        exact ⟨by omega, eq_of_beq hj.2⟩)
      (by
        intro j'
        unfold updMap
        by_cases hjj : j' = i
        · subst hjj
          rw [if_pos rfl, hval]
          exact ⟨le_refl _, le_refl _⟩
        · rw [if_neg hjj]
          exact hpre.2 j')
      hst2.2.1
    refine ⟨⟨fun j => (hpost.2.1 j).1, Or.inr ⟨by omega, ?_, ?_⟩⟩, ?_⟩
    · intro j
      have := (hpost.2.1 j).2
      simpa using this
    · have heq := hpost.2.2 i (le_refl i)
      rw [Nat.add_sub_cancel, heq]
      unfold updMap
      rw [if_pos rfl, hval]
    · refine ⟨(by rw [hpost.1]; exact hst2.1), fun j hj1 hj2 => ?_⟩
      rw [hpost.1]
      by_cases hji : j = i
      · subst hji
        exact hst2.2.1
      · have := hbest.2 j hj1 (by omega)
        omega

/-- The whole dynamic program of a self-comparison ends with a diagonal
best block dominating every diagonal run. -/
theorem outer_diag (s : List Char) (lo hi : Nat) (hlen : hi ≤ s.length) :
    ∀ (n i : Nat) (prev : Nat → Nat) (st : BestB), lo ≤ i → i + n = hi →
      DPrevInv s lo hi i prev → DBestInv s lo hi i st →
      DBestInv s lo hi hi (outerLoop (b2jOf s) s lo hi (List.range' i n) prev st)
  | 0, i, prev, st, hi1, hi2, _, hbest => by
    have : i = hi := by omega
    subst this
    exact hbest
  | n + 1, i, prev, st, hi1, hi2, hprev, hbest => by
    rw [List.range'_succ, outerLoop]
    have h := inner_row_diag s lo hi i prev st hi1 (by omega) hlen hprev hbest
    exact outer_diag s lo hi hlen n (i + 1) _ _ (by omega) (by omega) h.1 h.2

theorem extendBack_stuck (a b : List Char) (alo blo : Nat) :
    ∀ (fuel : Nat) (st : BestB), ¬(alo < st.i) →
      extendBack a b alo blo fuel st = st
  | 0, st, _ => rfl
  | fuel + 1, st, h => by
    rw [extendBack, if_neg (fun hc => h hc.1)]

theorem extendFwd_stuck (a b : List Char) (ahi bhi : Nat) :
    ∀ (fuel : Nat) (st : BestB), ¬(st.i + st.k < ahi) →
      extendFwd a b ahi bhi fuel st = st
  | 0, st, _ => rfl
  | fuel + 1, st, h => by
    rw [extendFwd, if_neg (fun hc => h hc.1)]

theorem extendBack_diag (s : List Char) (lo : Nat) :
    ∀ (fuel : Nat) (st : BestB), st.i = st.j → lo ≤ st.i → st.i - lo ≤ fuel →
      extendBack s s lo lo fuel st = ⟨lo, lo, st.k + (st.i - lo)⟩
  | 0, st, hij, hlo, hfuel => by
    cases st with
    | mk i j k =>
      dsimp only at hij hlo hfuel ⊢
      subst hij
      have : i = lo := by omega
      subst this
      rw [extendBack]
      congr 1
      omega
  | fuel + 1, st, hij, hlo, hfuel => by
    rw [extendBack]
    by_cases hlt : lo < st.i
    · rw [if_pos ⟨hlt, by omega, by rw [hij]⟩]
      rw [extendBack_diag s lo fuel ⟨st.i - 1, st.j - 1, st.k + 1⟩
        (by dsimp only; omega) (by dsimp only; omega) (by dsimp only; omega)]
      congr 1
      dsimp only
      omega
    · rw [if_neg (fun hc => hlt hc.1)]
      cases st with
      | mk i j k =>
        dsimp only at hij hlo hlt ⊢
        subst hij
        have : i = lo := by omega
        subst this
        congr 1
        omega

theorem extendFwd_diag (s : List Char) (hi : Nat) :
    ∀ (fuel : Nat) (st : BestB), st.i = st.j → st.i + st.k ≤ hi →
      hi - (st.i + st.k) ≤ fuel →
      extendFwd s s hi hi fuel st = ⟨st.i, st.j, st.k + (hi - (st.i + st.k))⟩
  | 0, st, hij, hk, hfuel => by
    cases st with
    | mk i j k =>
      dsimp only at hij hk hfuel ⊢
      rw [extendFwd]
      congr 1
      omega
  | fuel + 1, st, hij, hk, hfuel => by
    rw [extendFwd]
    by_cases hlt : st.i + st.k < hi
    · rw [if_pos ⟨hlt, by omega, by rw [hij]⟩]
      rw [extendFwd_diag s hi fuel ⟨st.i, st.j, st.k + 1⟩ (by dsimp only; omega)
        (by dsimp only; omega) (by dsimp only; omega)]
      cases st with
      | mk i j k =>
        dsimp only
        congr 1
        dsimp only at hlt hk
        omega
    · rw [if_neg (fun hc => hlt hc.1)]
      cases st with
      | mk i j k =>
        dsimp only at hij hk hlt ⊢
        congr 1
        omega

/-- `find_longest_match` of a string against itself on a diagonal window
returns the whole window. -/
theorem findLongestMatch_diag (s : List Char) (lo hi : Nat) (h1 : lo ≤ hi)
    (h2 : hi ≤ s.length) :
    findLongestMatch s s lo hi lo hi = ⟨lo, lo, hi - lo⟩ := by
  unfold findLongestMatch
  have hb := outerLoop_bounds (b2jOf s) s lo hi lo hi (hi - lo) lo (fun _ => 0)
    ⟨lo, lo, 0⟩ (le_refl lo) (by omega)
    (fun j => ⟨Nat.zero_le _, fun hz => (hz rfl).elim⟩)
    ⟨le_refl lo, le_refl lo, (by show lo + 0 ≤ hi; omega),
      (by show lo + 0 ≤ hi; omega)⟩
  have hd := outer_diag s lo hi h2 (hi - lo) lo (fun _ => 0) ⟨lo, lo, 0⟩
    (le_refl lo) (by omega)
    ⟨fun j => Nat.zero_le _, Or.inl ⟨rfl, fun j => rfl⟩⟩
    ⟨rfl, fun j hj1 hj2 => by omega⟩
  generalize hg : outerLoop (b2jOf s) s lo hi (List.range' lo (hi - lo))
    (fun _ => 0) (⟨lo, lo, 0⟩ : BestB) = st1 at hb hd ⊢
  obtain ⟨hb1, hb2, hb3, hb4⟩ := hb
  show extendFwd s s hi hi hi (extendBack s s lo lo st1.i st1) = ⟨lo, lo, hi - lo⟩
  rw [extendBack_diag s lo st1.i st1 hd.1 hb1 (by omega)]
  rw [extendFwd_diag s hi hi ⟨lo, lo, st1.k + (st1.i - lo)⟩ rfl
    (by dsimp only; omega) (by dsimp only; omega)]
  dsimp only
  congr 1
  omega

/-- `find_longest_match` of an empty region finds nothing. -/
theorem findLongestMatch_empty (a b : List Char) (lo bl : Nat) :
    findLongestMatch a b lo lo bl bl = ⟨lo, bl, 0⟩ := by
  unfold findLongestMatch
  rw [show lo - lo = 0 from by omega]
  rw [show List.range' lo 0 = [] from rfl, outerLoop]
  show extendFwd a b lo bl lo (extendBack a b lo bl lo ⟨lo, bl, 0⟩) = ⟨lo, bl, 0⟩
  rw [extendBack_stuck a b lo bl lo ⟨lo, bl, 0⟩ (by show ¬(lo < lo); omega)]
  rw [extendFwd_stuck a b lo bl lo ⟨lo, bl, 0⟩ (by show ¬(lo + 0 < lo); omega)]

/-- The matched total of an empty region is zero. -/
theorem matchTotal_empty (a b : List Char) :
    ∀ (fuel lo bl : Nat), 1 ≤ fuel → matchTotal a b fuel lo lo bl bl = 0
  | 0, _, _, h => absurd h (by omega)
  | fuel + 1, lo, bl, _ => by
    rw [matchTotal, findLongestMatch_empty a b lo bl]
    rfl

/-- The matched total of a string against itself on a diagonal window is
the full window size. -/
theorem matchTotal_diag (s : List Char) :
    ∀ (fuel lo hi : Nat), lo ≤ hi → hi ≤ s.length → 2 ≤ fuel →
      matchTotal s s fuel lo hi lo hi = hi - lo
  | 0, _, _, _, _, h => absurd h (by omega)
  | fuel + 1, lo, hi, h1, h2, hf => by
    rw [matchTotal, findLongestMatch_diag s lo hi h1 h2]
    dsimp only
    split_ifs with hk
    · omega
    · rw [show lo + (hi - lo) = hi from by omega]
      rw [matchTotal_empty s s fuel lo lo (by omega),
        matchTotal_empty s s fuel hi hi (by omega)]
      omega

/-- The ratio of a string with itself is exactly 1. -/
theorem seqRatio_self (s : List Char) : seqRatio s s = 1 := by
  unfold seqRatio
  split_ifs with h
  · rfl
  · have hn : 1 ≤ s.length := by omega
    have hm : matchesTotal s s = s.length := by
      unfold matchesTotal
      have := matchTotal_diag s (s.length + s.length + 1) 0 s.length
        (Nat.zero_le _) (le_refl _) (by omega)
      simpa using this
    rw [hm]
    have hq : (0 : ℚ) < (s.length : ℚ) := by exact_mod_cast hn
    field_simp
    ring

/-- The ratio always lies in [0, 1]. -/
theorem seqRatio_bounds (a b : List Char) : 0 ≤ seqRatio a b ∧ seqRatio a b ≤ 1 := by
  unfold seqRatio
  split_ifs with h
  · norm_num
  · have hle := matchesTotal_le a b
    have hsum : 2 * matchesTotal a b ≤ a.length + b.length := by omega
    have hpos : (0 : ℚ) < (a.length : ℚ) + (b.length : ℚ) := by
      have : 0 < a.length + b.length := by omega
      exact_mod_cast this
    constructor
    · positivity
    · rw [div_le_one hpos]
      calc 2 * (matchesTotal a b : ℚ) = ((2 * matchesTotal a b : ℕ) : ℚ) := by push_cast; ring
        _ ≤ ((a.length + b.length : ℕ) : ℚ) := by exact_mod_cast hsum
        _ = (a.length : ℚ) + (b.length : ℚ) := by push_cast; ring

/-- Lower-casing distributes over the space join. -/
theorem lowerStr_joinSpace : ∀ (ls : List (List Char)),
    lowerStr (joinSpace ls) = joinSpace (ls.map lowerStr)
  | [] => rfl
  | [x] => rfl
  | x :: y :: rest => by
    rw [joinSpace, List.map_cons, List.map_cons, joinSpace]
    show lowerStr (x ++ ' ' :: joinSpace (y :: rest)) =
      lowerStr x ++ ' ' :: joinSpace (lowerStr y :: rest.map lowerStr)
    unfold lowerStr
    rw [List.map_append, List.map_cons]
    have h := lowerStr_joinSpace (y :: rest)
    unfold lowerStr at h
    rw [h, List.map_cons, show pyLower ' ' = ' ' from rfl]

/-- Claim C7, amended: the similarity score always lies in [0, 1] and is
exactly 1 for test cases with identical titles and identical step lists up
to letter case; it is not symmetric in general. -/
theorem similarity_bounds_and_equal (A B : TestCaseDTO) :
    0 ≤ similarity A B ∧ similarity A B ≤ 1 ∧
      (lowerStr A.title = lowerStr B.title →
        A.steps.map lowerStr = B.steps.map lowerStr → similarity A B = 1) := by
  have h1 := seqRatio_bounds (lowerStr A.title) (lowerStr B.title)
  have h2 := seqRatio_bounds (lowerStr (joinSpace A.steps)) (lowerStr (joinSpace B.steps))
  unfold similarity
  refine ⟨?_, ?_, ?_⟩
  · have := add_nonneg (mul_nonneg h1.1 (by norm_num : (0:ℚ) ≤ 6/10))
      (mul_nonneg h2.1 (by norm_num : (0:ℚ) ≤ 4/10))
    exact this
  · nlinarith [h1.1, h1.2, h2.1, h2.2]
  · intro ht hs
    rw [ht]
    have hsteps : lowerStr (joinSpace A.steps) = lowerStr (joinSpace B.steps) := by
      rw [lowerStr_joinSpace, lowerStr_joinSpace, hs]
    rw [hsteps, seqRatio_self, seqRatio_self]
    norm_num

/-- Test case with mixed-case title and steps. -/
def tcCaseA : TestCaseDTO :=
  ⟨3, "Tide Pool".toList, [], [], [], ["Step ONE".toList], TestPriority.CRITICAL, none⟩

/-- The same test case with the letter cases flipped. -/
def tcCaseB : TestCaseDTO :=
  ⟨4, "tIDE pOOL".toList, [], [], [], ["sTEP one".toList], TestPriority.LOW, none⟩

/-- Witness for the amended claim C7 at two concrete test cases identical
up to letter case. -/
theorem similarity_bounds_and_equal_witness :
    0 ≤ similarity tcCaseA tcCaseB ∧ similarity tcCaseA tcCaseB ≤ 1 ∧
      similarity tcCaseA tcCaseB = 1 :=
  ⟨(similarity_bounds_and_equal tcCaseA tcCaseB).1,
   (similarity_bounds_and_equal tcCaseA tcCaseB).2.1,
   (similarity_bounds_and_equal tcCaseA tcCaseB).2.2 (by decide) (by decide)⟩

/-! ## `OptimizationAgent._find_duplicates`
(`src/backend/src/agents/optimization_agent.py`) -/

/-- CPython string comparison `<`: lexicographic on code points.  The
source compares priority values with `tc.priority.value >=
other.priority.value`, which for the total string order is the negation
of `<`. -/
def pyStrLt : List Char → List Char → Bool
  | [], [] => false
  | [], _ :: _ => true
  | _ :: _, [] => false
  | a :: as, b :: bs =>
    if a.toNat < b.toNat then true
    else if b.toNat < a.toNat then false
    else pyStrLt as bs

/-- One entry of the `duplicates` list of `_find_duplicates`: the two
test-case ids and the similarity score. -/
structure DupPair where
  testcase1 : Nat
  testcase2 : Nat
  score : ℚ

/-- One recommendation appended by `_find_duplicates`: its `type` and
`severity` fields and the two titles named in the action string
`Keep {keep.title}, review {drop.title} for merge/removal` (the `message`
field repeats the two titles and the score and is omitted). -/
structure DupRec where
  rtype : List Char
  severity : List Char
  keepTitle : List Char
  dropTitle : List Char
deriving DecidableEq

/-- The inner `for other in testcases[idx + 1:]` loop of
`_find_duplicates` for a fixed `tc`.  Python picks
`keep = tc if tc.priority.value >= other.priority.value else other` and
`drop` as the other one of the two. -/
def findDupInner (threshold : ℚ) (tc : TestCaseDTO) :
    List TestCaseDTO → List DupPair × List DupRec
  | [] => ([], [])
  | other :: rest =>
    let score := similarity tc other
    let dupRest := findDupInner threshold tc rest
    if threshold ≤ score then
      (⟨tc.id, other.id, score⟩ :: dupRest.1,
        (if pyStrLt tc.priority.value.toList other.priority.value.toList then
          (⟨"duplicate".toList, "medium".toList, other.title, tc.title⟩ : DupRec)
        else ⟨"duplicate".toList, "medium".toList, tc.title, other.title⟩) ::
          dupRest.2)
    else dupRest

/-- `OptimizationAgent._find_duplicates`: the `duplicates` and
`recommendations` lists over all index pairs `idx < idx2` (the
`threshold_used` entry just echoes the argument). -/
def find_duplicates (threshold : ℚ) : List TestCaseDTO → List DupPair × List DupRec
  | [] => ([], [])
  | tc :: rest =>
    ((findDupInner threshold tc rest).1 ++ (find_duplicates threshold rest).1,
      (findDupInner threshold tc rest).2 ++ (find_duplicates threshold rest).2)

/-- Duplicate pair member with priority CRITICAL. -/
def tcDupA : TestCaseDTO :=
  ⟨10, "login alpha".toList, [], [], [], ["open page".toList],
    TestPriority.CRITICAL, none⟩

/-- The same test-case content with priority NORMAL. -/
def tcDupB : TestCaseDTO :=
  ⟨11, "login alpha".toList, [], [], [], ["open page".toList],
    TestPriority.NORMAL, none⟩

/-- The two duplicate-pair test cases have similarity 1. -/
theorem similarity_dup_pair : similarity tcDupA tcDupB = 1 := by
  have h : similarity tcDupA tcDupB =
      seqRatio (lowerStr "login alpha".toList) (lowerStr "login alpha".toList) *
          (6 / 10) +
        seqRatio (lowerStr (joinSpace ["open page".toList]))
          (lowerStr (joinSpace ["open page".toList])) * (4 / 10) := rfl
  rw [h, seqRatio_self, seqRatio_self]
  norm_num

/-- Claim C2: code bug.  `_find_duplicates` chooses `keep` by comparing
the priority `.value` strings lexicographically, so at the failing input
`[tcDupA, tcDupB]` (identical titles and steps, priorities CRITICAL and
NORMAL, threshold 0.8) the single recommendation keeps the
NORMAL-priority case and flags the CRITICAL one for review, the opposite
of the claimed CRITICAL-above-NORMAL ranking, because the string
"CRITICAL" sorts below "NORMAL". -/
theorem find_duplicates_priority_bug :
    (find_duplicates (4 / 5) [tcDupA, tcDupB]).2 =
      [⟨"duplicate".toList, "medium".toList, tcDupB.title, tcDupA.title⟩] ∧
    tcDupA.priority = TestPriority.CRITICAL ∧
    tcDupB.priority = TestPriority.NORMAL ∧
    pyStrLt "CRITICAL".toList "NORMAL".toList = true := by
  refine ⟨?_, rfl, rfl, by decide⟩
  have hle : (4 / 5 : ℚ) ≤ similarity tcDupA tcDupB := by
    rw [similarity_dup_pair]; norm_num
  simp only [find_duplicates, findDupInner]
  rw [if_pos hle]
  decide

/-! ## `OptimizationAgent._check_coverage`
(`src/backend/src/agents/optimization_agent.py`) -/

/-- The characters Python `str.splitlines` treats as line boundaries. -/
def isLineBreak (c : Char) : Bool :=
  c == '\n' || c == '\r' || c.toNat == 0x0b || c.toNat == 0x0c ||
    c.toNat == 0x1c || c.toNat == 0x1d || c.toNat == 0x1e ||
    c.toNat == 0x85 || c.toNat == 0x2028 || c.toNat == 0x2029

/-- Worker for `pySplitLines`; `acc` holds the current line reversed.  A
carriage return followed by a newline counts as a single boundary. -/
def splitLinesAux : List Char → List Char → List (List Char)
  | [], acc => if acc.isEmpty then [] else [acc.reverse]
  | '\r' :: '\n' :: rest, acc => acc.reverse :: splitLinesAux rest []
  | c :: rest, acc =>
    if isLineBreak c then acc.reverse :: splitLinesAux rest []
    else splitLinesAux rest (c :: acc)

/-- Python `str.splitlines()`. -/
def pySplitLines (l : List Char) : List (List Char) := splitLinesAux l []

/-- The requirement lines `_check_coverage` works on:
`[line.strip() for line in requirements_text.splitlines() if line.strip()
and len(line.strip()) > 8][:50]`. -/
def requirementLines (text : List Char) : List (List Char) :=
  (((pySplitLines text).map pyStrip).filter
      (fun l => !l.isEmpty && decide (8 < l.length))).take 50

/-- Whether the first list is an initial segment of the second. -/
def startsWith : List Char → List Char → Bool
  | [], _ => true
  | _ :: _, [] => false
  | a :: as, b :: bs => a == b && startsWith as bs

/-- The Python substring test `needle in haystack`. -/
def isSubstring : List Char → List Char → Bool
  | needle, [] => needle.isEmpty
  | needle, c :: rest => startsWith needle (c :: rest) || isSubstring needle rest

/-- `OptimizationAgent._covers_requirement`: the lower-cased requirement
occurs as a substring of the lower-cased space-join of title, story and
joined steps. -/
def covers_requirement (tc : TestCaseDTO) (req : List Char) : Bool :=
  isSubstring (lowerStr req)
    (lowerStr (joinSpace [tc.title, tc.story, joinSpace tc.steps]))

/-- One entry of the `coverage` list of `_check_coverage`. -/
structure CoverageItem where
  requirement : List Char
  covered : Bool
  testcases : List Nat
deriving DecidableEq

/-- One recommendation appended by `_check_coverage` for an uncovered
requirement. -/
structure CoverageRec where
  rtype : List Char
  severity : List Char
  message : List Char
  action : List Char
deriving DecidableEq

/-- The `for req in requirements` loop of `_check_coverage`: the coverage
items and the recommendations, in iteration order. -/
def coverageLoop (tcs : List TestCaseDTO) :
    List (List Char) → List CoverageItem × List CoverageRec
  | [] => ([], [])
  | req :: rest =>
    let covered_by :=
      (tcs.filter (fun tc => covers_requirement tc req)).map (fun tc => tc.id)
    let item : CoverageItem := ⟨req, !covered_by.isEmpty, covered_by⟩
    let recsHere : List CoverageRec :=
      if covered_by.isEmpty then
        [⟨"coverage".toList, "high".toList,
          "Requirement not covered: ".toList ++ req.take 80,
          "Create test case for this requirement".toList⟩]
      else []
    (item :: (coverageLoop tcs rest).1, recsHere ++ (coverageLoop tcs rest).2)

/-- `OptimizationAgent._check_coverage`: coverage items, recommendations
and the coverage percentage (`0` for an empty requirement list). -/
def check_coverage (tcs : List TestCaseDTO) (text : List Char) :
    List CoverageItem × List CoverageRec × ℚ :=
  let coverage := (coverageLoop tcs (requirementLines text)).1
  let recs := (coverageLoop tcs (requirementLines text)).2
  let percent : ℚ :=
    if coverage.isEmpty then 0
    else ((coverage.filter (fun item => item.covered)).length : ℚ) /
      (coverage.length : ℚ) * 100
  (coverage, recs, percent)

/-- The `covered_by` list of `_check_coverage` is empty exactly when no
test case satisfies the coverage test. -/
theorem coveredBy_isEmpty (tcs : List TestCaseDTO) (p : TestCaseDTO → Bool) :
    ((tcs.filter p).map (fun tc => tc.id)).isEmpty = !(tcs.any p) := by
  induction tcs with
  | nil => rfl
  | cons t ts ih =>
    by_cases h : p t
    · simp [List.filter_cons, List.any_cons, h]
    · simp [List.filter_cons, List.any_cons, h, ih]

/-- Structure of the `_check_coverage` loop output: the requirements in
order, covered flags equal to the existence test, one high-severity
recommendation per uncovered requirement, and the counting facts behind
the percentage. -/
theorem coverageLoop_spec (tcs : List TestCaseDTO) (reqs : List (List Char)) :
    (coverageLoop tcs reqs).1.map CoverageItem.requirement = reqs ∧
    (∀ item ∈ (coverageLoop tcs reqs).1,
      item.covered = tcs.any (fun tc => covers_requirement tc item.requirement)) ∧
    (coverageLoop tcs reqs).2 =
      (reqs.filter
          (fun req => !(tcs.any (fun tc => covers_requirement tc req)))).map
        (fun req => ⟨"coverage".toList, "high".toList,
          "Requirement not covered: ".toList ++ req.take 80,
          "Create test case for this requirement".toList⟩) ∧
    ((coverageLoop tcs reqs).1.filter (fun item => item.covered)).length =
      (reqs.filter (fun req => tcs.any (fun tc => covers_requirement tc req))).length ∧
    (coverageLoop tcs reqs).1.length = reqs.length := by
  induction reqs with
  | nil =>
    exact ⟨rfl, fun item h => absurd h (by simp [coverageLoop]), rfl, rfl, rfl⟩
  | cons req rest ih =>
    obtain ⟨ih1, ih2, ih3, ih4, ih5⟩ := ih
    have hcb := coveredBy_isEmpty tcs (fun tc => covers_requirement tc req)
    refine ⟨?_, ?_, ?_, ?_, ?_⟩
    · simp only [coverageLoop, List.map_cons, ih1]
    · intro item hi
      simp only [coverageLoop, List.mem_cons] at hi
      rcases hi with rfl | hi
      · dsimp only
        rw [hcb, Bool.not_not]
      · exact ih2 item hi
    · simp only [coverageLoop, List.filter_cons]
      cases hany : tcs.any (fun tc => covers_requirement tc req) with
      | false =>
        rw [hany] at hcb
        simp [hcb, hany, ih3]
      | true =>
        rw [hany] at hcb
        simp [hcb, hany, ih3]
    · simp only [coverageLoop, List.filter_cons]
      cases hany : tcs.any (fun tc => covers_requirement tc req) with
      | false =>
        rw [hany] at hcb
        simp [hcb, hany, ih4]
      | true =>
        rw [hany] at hcb
        simp [hcb, hany, ih4]
    · simp only [coverageLoop, List.length_cons, ih5]

/-- Claim C6: `_check_coverage` reports one coverage item per selected
requirement line in order; a line is covered exactly when it occurs
case-insensitively as a substring of some test case's space-joined
title, story and steps; each uncovered line yields exactly one
high-severity recommendation; and the percentage is the covered count
over the total count times 100, with 0 for no requirement lines. -/
theorem check_coverage_claim (tcs : List TestCaseDTO) (text : List Char) :
    ((check_coverage tcs text).1.map CoverageItem.requirement =
      requirementLines text) ∧
    (∀ item ∈ (check_coverage tcs text).1,
      (item.covered = true ↔ ∃ tc ∈ tcs,
        isSubstring (lowerStr item.requirement)
          (lowerStr (joinSpace [tc.title, tc.story, joinSpace tc.steps])) = true)) ∧
    ((check_coverage tcs text).2.1 =
      ((requirementLines text).filter
          (fun req => !(tcs.any (fun tc => covers_requirement tc req)))).map
        (fun req => ⟨"coverage".toList, "high".toList,
          "Requirement not covered: ".toList ++ req.take 80,
          "Create test case for this requirement".toList⟩)) ∧
    ((check_coverage tcs text).2.2 =
      if requirementLines text = [] then 0
      else (((requirementLines text).filter
            (fun req => tcs.any (fun tc => covers_requirement tc req))).length : ℚ) /
        ((requirementLines text).length : ℚ) * 100) := by
  obtain ⟨h1, h2, h3, h4, h5⟩ := coverageLoop_spec tcs (requirementLines text)
  refine ⟨h1, ?_, h3, ?_⟩
  · intro item hi
    have hc := h2 item hi
    rw [hc, List.any_eq_true]
    constructor
    · rintro ⟨tc, htc, hcov⟩
      exact ⟨tc, htc, hcov⟩
    · rintro ⟨tc, htc, hcov⟩
      exact ⟨tc, htc, hcov⟩
  · show (if (coverageLoop tcs (requirementLines text)).1.isEmpty then (0 : ℚ)
      else (((coverageLoop tcs (requirementLines text)).1.filter
          (fun item => item.covered)).length : ℚ) /
        ((coverageLoop tcs (requirementLines text)).1.length : ℚ) * 100) = _
    by_cases hnil : requirementLines text = []
    · rw [if_pos hnil, hnil]
      rfl
    · have hemp : (coverageLoop tcs (requirementLines text)).1.isEmpty = false := by
        cases hc : (coverageLoop tcs (requirementLines text)).1 with
        | nil =>
          exfalso
          apply hnil
          have hlen : (requirementLines text).length = 0 := by
            rw [← h5, hc]; rfl
          exact List.length_eq_zero.mp hlen
        | cons a l => rfl
      rw [hemp, if_neg hnil]
      simp only [Bool.false_eq_true, if_false]
      rw [h4, h5]

/-! ## `ManualToUITestsAgent`
(`src/backend/src/agents/manual_to_ui_tests.py`, with `_to_test_name`
from `src/backend/src/agents/base_agent.py`) -/

/-- Python `str.upper` (ASCII fragment). -/
def pyUpper (c : Char) : Char :=
  if 'a' ≤ c ∧ c ≤ 'z' then Char.ofNat (c.toNat - 32) else c

/-- `str.upper` on a string. -/
def upperStr (l : List Char) : List Char := l.map pyUpper

/-- The regex class `\w` (ASCII fragment; the agents handle ASCII data,
Python additionally matches non-ASCII word characters). -/
def isWordChar (c : Char) : Bool :=
  ('a' ≤ c && c ≤ 'z') || ('A' ≤ c && c ≤ 'Z') || ('0' ≤ c && c ≤ '9') || c == '_'

/-- `ManualToUITestsAgent._sanitize_filename`:
`re.sub` of everything outside `\w`, hyphen and dot with an underscore on
the stripped lower-cased value, with the fallback "test_ui" for an empty
result. -/
def agent_sanitize_filename (value : List Char) : List Char :=
  let clean := (lowerStr (pyStrip value)).map
    (fun c => if isWordChar c || c == '-' || c == '.' then c else '_')
  if clean.isEmpty then "test_ui".toList else clean

/-- Worker for `pySplitWs`; `acc` holds the current word reversed. -/
def pySplitWsAux : List Char → List Char → List (List Char)
  | [], acc => if acc.isEmpty then [] else [acc.reverse]
  | c :: rest, acc =>
    if pyIsSpace c then
      if acc.isEmpty then pySplitWsAux rest []
      else acc.reverse :: pySplitWsAux rest []
    else pySplitWsAux rest (c :: acc)

/-- Python `str.split()` with no argument: split on whitespace runs and
discard empty pieces. -/
def pySplitWs (l : List Char) : List (List Char) := pySplitWsAux l []

/-- `"_".join(parts)`. -/
def joinUnd : List (List Char) → List Char
  | [] => []
  | [x] => x
  | x :: y :: rest => x ++ '_' :: joinUnd (y :: rest)

/-- `BaseAgent._to_test_name`: drop the characters outside `\w` and
whitespace from the lower-cased text, split into words, keep the first
six and join them with underscores after a `test_` stem. -/
def to_test_name (text : List Char) : List Char :=
  "test_".toList ++
    joinUnd ((pySplitWs ((lowerStr text).filter
      (fun c => isWordChar c || pyIsSpace c))).take 6)

/-- `GeneratedTestFile`. -/
structure GeneratedTestFile where
  filename : List Char
  test_file : List Char
  test_count : Int
  framework : List Char
  browsers : List (List Char)
deriving DecidableEq

/-- The fields of `ManualToUITestsInput` the verified code path reads.
The `viewport` dict (`Dict[str, int]`) is an association list; the
`headless` flag and the `timeout` are formatted into the prompt too but
are plain scalars that cannot raise and do not influence the output, so
they are omitted. -/
structure ManualToUIInput where
  testcases : List TestCaseDTO
  framework : List Char
  browsers : List (List Char)
  base_url : List Char
  viewport : List (List Char × Int)
  priority_filter : Option (List (List Char))
deriving DecidableEq

/-- The fields of `ManualToUITestsOutput`. -/
structure ManualToUIOutput where
  success : Bool
  error : Option (List Char)
  generated_tests : List GeneratedTestFile
  total_tests : Int
  framework : List Char
  browsers : List (List Char)
deriving DecidableEq

/-- `ManualToUITestsAgent._filter_by_priority`: a falsy filter (absent or
empty list) keeps every test case, otherwise a test case stays when its
priority value is among the upper-cased filter entries. -/
def filter_by_priority (testcases : List TestCaseDTO)
    (priority_filter : Option (List (List Char))) : List TestCaseDTO :=
  match priority_filter with
  | none => testcases
  | some pf =>
    if pf.isEmpty then testcases
    else testcases.filter
      (fun tc => (pf.map upperStr).contains tc.priority.value.toList)

/-- One entry of the `tests` list of the LLM response as
`_parse_response` reads it with `dict.get`: a `none` field models a
missing key, and Python `str(None)` is the four-letter string "None". -/
structure RespTest where
  filename : Option (List Char)
  python_code : Option (List Char)
  test_count : Option Int

/-- The structured LLM response; `_parse_response` only reads the `tests`
key (`none` models a missing, falsy or non-list value). -/
structure LLMResponse where
  tests : Option (List RespTest)

/-- The per-item loop of `_parse_response`; `nfiles` is `len(files)` so
far (it numbers the fallback filename for items without one). -/
def parse_response_items (fw : List Char) (brs : List (List Char)) :
    List RespTest → Nat → List GeneratedTestFile
  | [], _ => []
  | t :: rest, nfiles =>
    let filename0 := match t.filename with
      | some s => s
      | none => "None".toList
    let code := match t.python_code with
      | some s => s
      | none => "None".toList
    let filename := if filename0.isEmpty then
        "test_ui_".toList ++ natDigits (nfiles + 1) ++ ".py".toList
      else filename0
    if code.isEmpty then parse_response_items fw brs rest nfiles
    else
      ⟨agent_sanitize_filename filename, code,
        (match t.test_count with | some n => n | none => 1), fw, brs⟩ ::
        parse_response_items fw brs rest (nfiles + 1)

/-- `ManualToUITestsAgent._parse_response`. -/
def parse_response (fw : List Char) (brs : List (List Char))
    (r : LLMResponse) : List GeneratedTestFile :=
  match r.tests with
  | none => []
  | some ts => if ts.isEmpty then [] else parse_response_items fw brs ts 0

/-- A single-quote character (the generated stub quotes strings with
it). -/
def sglq : Char := Char.ofNat 39

/-- The numbered step comment lines of `_build_stub`. -/
def stepsLines : Nat → List (List Char) → List (List Char)
  | _, [] => []
  | idx, s :: rest =>
    ("        # Step ".toList ++ natDigits idx ++ ": ".toList ++ s) ::
      stepsLines (idx + 1) rest

/-- `"\n".join(parts)`. -/
def joinNl : List (List Char) → List Char
  | [] => []
  | [x] => x
  | x :: y :: rest => x ++ '\n' :: joinNl (y :: rest)

/-- The `steps_code` block of `_build_stub`, with its TODO placeholder
for a test case without steps. -/
def stepsCode (steps : List (List Char)) : List Char :=
  let sc := joinNl (stepsLines 1 steps)
  if sc.isEmpty then "        # TODO: implement steps\n".toList else sc

/-- `ManualToUITestsAgent._build_stub`: the generated pytest stub text. -/
def build_stub (tc : TestCaseDTO) (input : ManualToUIInput) : List Char :=
  "import allure\nimport pytest\nfrom playwright.sync_api import Page, expect\n\n@allure.feature(".toList ++
    [sglq] ++ tc.feature ++ [sglq] ++ ")\n@allure.story(".toList ++
    [sglq] ++ tc.story ++ [sglq] ++ ")\n@allure.title(".toList ++
    [sglq] ++ tc.title ++ [sglq] ++ ")\ndef ".toList ++
    to_test_name tc.title ++ "(page: Page):\n    page.goto(".toList ++
    [sglq] ++ input.base_url ++ [sglq] ++ ")\n".toList ++
    stepsCode tc.steps ++ "\n    # Add assertions with expect(...)\n".toList

/-- `ManualToUITestsAgent._fallback_file`: one deterministic stub file
with `test_count = 1` for a test case; an empty feature falls back to
"ui". -/
def fallback_file (tc : TestCaseDTO) (input : ManualToUIInput) :
    GeneratedTestFile :=
  { filename := "test_".toList ++
      agent_sanitize_filename
        (if tc.feature.isEmpty then "ui".toList else tc.feature) ++
      ".py".toList,
    test_file := build_stub tc input,
    test_count := 1,
    framework := input.framework,
    browsers := input.browsers }

/-- A read `d[k]` of a Python `Dict[str, int]` modelled as an
association list: `none` where Python raises `KeyError`. -/
def dictItem (d : List (List Char × Int)) (k : List Char) : Option Int :=
  match d.find? (fun p => p.1 == k) with
  | none => none
  | some p => some p.2

/-- The effect of `ManualToUITestsAgent._build_prompt` on `execute`: the
prompt string only feeds the LLM call, which is an oracle here, but the
dict reads `input_data.viewport` at `width` and at `height` raise
`KeyError` when the key is missing — evaluated left to right, so a
missing `width` is reported first.  Returns the pair read, or the
missing key the `KeyError` carries.  All other pieces of the prompt are
plain formatting of string, list, bool and int fields and cannot
raise. -/
def build_prompt_viewport (input : ManualToUIInput) :
    Except (List Char) (Int × Int) :=
  match dictItem input.viewport "width".toList with
  | none => .error "width".toList
  | some w =>
    match dictItem input.viewport "height".toList with
    | none => .error "height".toList
    | some h => .ok (w, h)

/-- `ManualToUITestsAgent.execute`.  The LLM call outcome is a parameter:
`.error` models `generate_structured_response` raising, which the inner
`except` catches, leaving `generated_files` empty so the fallback list is
built.  `_build_prompt` runs before that inner `try`; a `KeyError` from
its viewport reads escapes to the outer `except`, which returns a
failure output whose `error` is `str(exc)` — for a `KeyError` the missing
key in single quotes. -/
def executeManualToUI (llm : Except (List Char) LLMResponse)
    (input : ManualToUIInput) : ManualToUIOutput :=
  let filtered := filter_by_priority input.testcases input.priority_filter
  if filtered.isEmpty then
    { success := false,
      error := some "No testcases to convert after applying priority filter".toList,
      generated_tests := [], total_tests := 0,
      framework := "playwright".toList, browsers := [] }
  else
    match build_prompt_viewport input with
    | .error k =>
      { success := false, error := some ([sglq] ++ k ++ [sglq]),
        generated_tests := [], total_tests := 0,
        framework := "playwright".toList, browsers := [] }
    | .ok _ =>
      let generated0 : List GeneratedTestFile :=
        match llm with
        | .error _ => []
        | .ok r => parse_response input.framework input.browsers r
      let generated := if generated0.isEmpty then
          filtered.map (fun tc => fallback_file tc input)
        else generated0
      { success := true, error := none, generated_tests := generated,
        total_tests := generated.foldl (fun s f => s + f.test_count) 0,
        framework := input.framework, browsers := input.browsers }

/-- Manual test case used by the C1 counterexample and witness. -/
def tcUiW : TestCaseDTO :=
  ⟨21, "Open calculator page".toList, "Calculator".toList, "Smoke".toList,
    "Page opens".toList, ["open page".toList, "check title".toList],
    TestPriority.NORMAL, none⟩

/-- Type-correct input refuting the original claim C1: a non-empty
test-case list and no priority filter, but a viewport dict without the
`width` key. -/
def uiInputBad : ManualToUIInput :=
  ⟨[tcUiW], "playwright".toList, ["chromium".toList],
    "https://cloud.ru/calculator".toList, [], none⟩

/-- Claim C1 counterexample: on an input whose viewport dict lacks the
`width` key, the `_build_prompt` dict read raises `KeyError` before the
guarded LLM call, the outer `except` catches it, and `execute` returns
`success = false` with the stringified `KeyError` — despite the
non-empty test-case list, the absent priority filter and the failing
LLM, refuting the claimed `success = true`. -/
theorem manual_to_ui_viewport_counterexample :
    uiInputBad.testcases ≠ [] ∧ uiInputBad.priority_filter = none ∧
    (executeManualToUI (.error "LLM down".toList) uiInputBad).success = false ∧
    (executeManualToUI (.error "LLM down".toList) uiInputBad).error =
      some ([sglq] ++ "width".toList ++ [sglq]) :=
  ⟨by decide, rfl, rfl, rfl⟩

/-- Claim C1, amended: with the LLM raising on every call, `execute` on
an input with a non-empty test-case list, no priority filter and a
viewport carrying the `width` and `height` keys returns success,
exactly one generated file per input test case, and every file's
`test_count` equal to 1.  (Without both viewport keys the
`_build_prompt` dict read raises `KeyError` and the outer `except`
returns a failure output instead.) -/
theorem manual_to_ui_llm_failure (err : List Char) (input : ManualToUIInput)
    (hne : input.testcases ≠ []) (hpf : input.priority_filter = none)
    (hvp : ∃ wh, build_prompt_viewport input = .ok wh) :
    (executeManualToUI (.error err) input).success = true ∧
    (executeManualToUI (.error err) input).generated_tests.length =
      input.testcases.length ∧
    ∀ f ∈ (executeManualToUI (.error err) input).generated_tests,
      f.test_count = 1 := by
  obtain ⟨wh, hw⟩ := hvp
  have hfilt : filter_by_priority input.testcases input.priority_filter =
      input.testcases := by rw [hpf]; rfl
  have hemp : input.testcases.isEmpty = false := by
    cases h : input.testcases with
    | nil => exact absurd h hne
    | cons a l => rfl
  have hexec : executeManualToUI (.error err) input =
      { success := true, error := none,
        generated_tests := input.testcases.map (fun tc => fallback_file tc input),
        total_tests := (input.testcases.map
          (fun tc => fallback_file tc input)).foldl
            (fun s f => s + f.test_count) 0,
        framework := input.framework, browsers := input.browsers } := by
    simp [executeManualToUI, hfilt, hemp, hw]
  rw [hexec]
  refine ⟨rfl, by simp, ?_⟩
  intro f hf
  simp only [List.mem_map] at hf
  obtain ⟨tc, _, rfl⟩ := hf
  rfl

/-- Concrete input for the C1 witness: one manual test case, no priority
filter, and the default viewport with both keys present. -/
def uiInputW : ManualToUIInput :=
  ⟨[tcUiW], "playwright".toList, ["chromium".toList],
    "https://cloud.ru/calculator".toList,
    [("width".toList, 1920), ("height".toList, 1080)], none⟩

/-- Witness for the amended claim C1 at a concrete input with the LLM
failing and a well-formed viewport. -/
theorem manual_to_ui_llm_failure_witness :
    uiInputW.testcases ≠ [] ∧ uiInputW.priority_filter = none ∧
    build_prompt_viewport uiInputW = .ok (1920, 1080) ∧
    ((executeManualToUI (.error "LLM down".toList) uiInputW).success = true ∧
      (executeManualToUI
        (.error "LLM down".toList) uiInputW).generated_tests.length =
        uiInputW.testcases.length ∧
      ∀ f ∈ (executeManualToUI (.error "LLM down".toList) uiInputW).generated_tests,
        f.test_count = 1) :=
  ⟨by decide, rfl, rfl,
    manual_to_ui_llm_failure "LLM down".toList uiInputW (by decide) rfl
      ⟨(1920, 1080), rfl⟩⟩

/-! ## `TestPlan_Agent` (`src/backend/src/agents/testplan_agent.py`) -/

/-- The opening-brace character. -/
def obr : Char := Char.ofNat 123

/-- The closing-brace character. -/
def cbr : Char := Char.ofNat 125

/-- The region `re.search` of an opening brace, any characters
(`re.DOTALL`, greedy) and a closing brace matches: from the first opening
brace to the last closing brace, provided the latter comes later. -/
def braceRegion (l : List Char) : Option (List Char) :=
  match l.findIdx? (fun c => c == obr), l.reverse.findIdx? (fun c => c == cbr) with
  | some i, some jr =>
    if i < l.length - 1 - jr then
      some ((l.drop i).take (l.length - 1 - jr - i + 1))
    else none
  | _, _ => none

/-- The parsed JSON object as far as `_parse_llm_response` inspects it:
its top-level keys. -/
structure JsonObj where
  keys : List (List Char)

/-- `TestPlan_Agent._parse_llm_response`, with `json.loads` passed in as
an oracle (its `.error` carries the `JSONDecodeError` text).  The result
is the parsed data or the message of the `ValueError` the code raises. -/
def parse_llm_response (jsonLoads : List Char → Except (List Char) JsonObj)
    (llm_response : List Char) : Except (List Char) JsonObj :=
  match braceRegion llm_response with
  | none => .error "Не удалось извлечь JSON из ответа LLM".toList
  | some region =>
    match jsonLoads region with
    | .error e => .error ("Некорректный JSON в ответе LLM: ".toList ++ e)
    | .ok data =>
      if !(data.keys.contains "test_plan".toList) then
        .error ("Отсутствует обязательный раздел: ".toList ++ "test_plan".toList)
      else if !(data.keys.contains "phases".toList) then
        .error ("Отсутствует обязательный раздел: ".toList ++ "phases".toList)
      else .ok data

/-- `TestPlan_Agent._filter_testcases`. -/
def tpFilter (testcases : List TestCaseDTO)
    (priority_filter : Option (List TestPriority)) : List TestCaseDTO :=
  match priority_filter with
  | none => testcases
  | some pf =>
    if pf.isEmpty then testcases
    else testcases.filter (fun tc => pf.contains tc.priority)

/-- The two fields of `TestPlanOutput` the claim speaks about. -/
structure TestPlanOutputM where
  success : Bool
  error : Option (List Char)
deriving DecidableEq

/-- `TestPlan_Agent.execute`.  The LLM call and `json.loads` are oracles
and the post-parse pipeline (enrichment, phases, resources) is abstracted
by `cont`, which builds the success output from the parsed data.  Raised
exceptions travel in `Except`; the final `except` clause of `execute`
turns any of them into a `success = False` output with `error = str(e)`. -/
def executeTestPlan (jsonLoads : List Char → Except (List Char) JsonObj)
    (llm : Except (List Char) (List Char)) (cont : JsonObj → TestPlanOutputM)
    (testcases : List TestCaseDTO)
    (priority_filter : Option (List TestPriority)) : TestPlanOutputM :=
  let result : Except (List Char) TestPlanOutputM :=
    if (tpFilter testcases priority_filter).isEmpty then
      .error "Нет тест-кейсов для включения в тест-план".toList
    else
      match llm with
      | .error e => .error e
      | .ok resp =>
        match parse_llm_response jsonLoads resp with
        | .error e => .error e
        | .ok data => .ok (cont data)
  match result with
  | .ok out => out
  | .error e => { success := false, error := some e }

/-- Test case used by the C3 counterexample and witness. -/
def tcTpW : TestCaseDTO :=
  ⟨31, "Plan smoke".toList, [], [], [], [], TestPriority.NORMAL, none⟩

/-- Claim C3 counterexample: with a raw LLM response containing no
brace-delimited region, `execute` does not propagate the validation
failure to its caller; the outer `except` catches it and returns a result
object with `success = false` and the extraction error text. -/
theorem testplan_no_propagate_counterexample :
    executeTestPlan (fun _ => .error []) (.ok "no json here".toList)
      (fun _ => ⟨true, none⟩) [tcTpW] none =
      ⟨false, some "Не удалось извлечь JSON из ответа LLM".toList⟩ := by
  rfl

/-- Claim C3, amended: if the raw response has no brace-delimited region,
or the extracted region parses to an object lacking the `test_plan` or
the `phases` key, `execute` catches the raised validation failure and
returns an output object with `success = false` carrying the error
message; nothing propagates to the caller. -/
theorem testplan_parse_failure_returns_output
    (jsonLoads : List Char → Except (List Char) JsonObj)
    (cont : JsonObj → TestPlanOutputM) (tcs : List TestCaseDTO)
    (pf : Option (List TestPriority)) (resp : List Char)
    (hne : (tpFilter tcs pf).isEmpty = false)
    (h : braceRegion resp = none ∨
      ∃ region data, braceRegion resp = some region ∧
        jsonLoads region = .ok data ∧
        (data.keys.contains "test_plan".toList = false ∨
          data.keys.contains "phases".toList = false)) :
    ∃ msg, executeTestPlan jsonLoads (.ok resp) cont tcs pf =
      ⟨false, some msg⟩ := by
  have herr : ∃ e, parse_llm_response jsonLoads resp = .error e := by
    rcases h with hb | ⟨region, data, hb, hj, hk⟩
    · exact ⟨"Не удалось извлечь JSON из ответа LLM".toList,
        by simp [parse_llm_response, hb]⟩
    · cases htp : data.keys.contains "test_plan".toList with
      | false =>
        exact ⟨"Отсутствует обязательный раздел: ".toList ++ "test_plan".toList,
          by simp only [parse_llm_response, hb, hj]; rw [htp]; rfl⟩
      | true =>
        cases hph : data.keys.contains "phases".toList with
        | false =>
          exact ⟨"Отсутствует обязательный раздел: ".toList ++ "phases".toList,
            by simp only [parse_llm_response, hb, hj]; rw [htp, hph]; rfl⟩
        | true =>
          rcases hk with hk | hk
          · rw [htp] at hk; cases hk
          · rw [hph] at hk; cases hk
  obtain ⟨e, he⟩ := herr
  refine ⟨e, ?_⟩
  simp [executeTestPlan, hne, he]

/-- Witness for the amended C3 theorem at a concrete brace-free
response. -/
theorem testplan_parse_failure_returns_output_witness :
    (tpFilter [tcTpW] none).isEmpty = false ∧
    braceRegion "plain text answer".toList = none ∧
    ∃ msg, executeTestPlan (fun _ => .error []) (.ok "plain text answer".toList)
      (fun _ => ⟨true, none⟩) [tcTpW] none = ⟨false, some msg⟩ :=
  ⟨rfl, by decide,
    testplan_parse_failure_returns_output (fun _ => .error [])
      (fun _ => ⟨true, none⟩) [tcTpW] none "plain text answer".toList rfl
      (Or.inl (by decide))⟩

/-! ## `JobManager.cancel_job`
(`src/backend/src/services/job_manager.py`, storage writes from
`src/backend/src/storage/job_storage.py`) -/

/-- The `JobStatus` enum. -/
inductive JobStatus where
  | PENDING
  | PROCESSING
  | COMPLETED
  | FAILED
  | CANCELLED
deriving DecidableEq, BEq

/-- A stored job record, with the fields `update_job_status` writes. -/
structure JobRecord where
  job_id : Nat
  status : JobStatus
  message : Option (List Char)
  updated_at : Nat
deriving DecidableEq

/-- `JobStorage.update_job` restricted to the updates `update_job_status`
passes: set the status, set the message only when the argument is truthy
(`None` or an empty string leaves the stored one), stamp `updated_at`
with the current time; an unknown id raises `JobNotFoundException`. -/
def update_job_status_storage (now : Nat) (jobs : List JobRecord) (id : Nat)
    (status : JobStatus) (message : Option (List Char)) :
    Except Unit (List JobRecord) :=
  if jobs.any (fun r => r.job_id == id) then
    .ok (jobs.map (fun r =>
      if r.job_id == id then
        { r with
          status := status,
          message := (match message with
            | none => r.message
            | some m => if m.isEmpty then r.message else some m),
          updated_at := now }
      else r))
  else .error ()

/-- Job-manager state: the storage dictionary and the ids holding a
running task. -/
structure JMState where
  jobs : List JobRecord
  running : List Nat
deriving DecidableEq

/-- `JobManager.cancel_job`: with a running task registered under the id
the task is cancelled (its done-callback removes it from
`running_tasks`) and the stored job is marked FAILED with the
cancellation message; without one the method returns `False` and
performs no further action. -/
def cancel_job (now : Nat) (st : JMState) (id : Nat) :
    Except Unit (Bool × JMState) :=
  if st.running.contains id then
    match update_job_status_storage now st.jobs id JobStatus.FAILED
        (some "Job cancelled by user".toList) with
    | .error e => .error e
    | .ok jobs2 =>
      .ok (true,
        { jobs := jobs2,
          running := st.running.filter (fun j => !(j == id)) })
  else .ok (false, st)

/-- Claim C10: when no running task is registered under the id,
`cancel_job` returns `False` and the whole state — in particular every
stored job record with its status, message and `updated_at` — is
unchanged. -/
theorem cancel_job_not_running (now : Nat) (st : JMState) (id : Nat)
    (h : st.running.contains id = false) :
    cancel_job now st id = .ok (false, st) := by
  have h' : ¬ (id ∈ st.running) := by simpa using h
  simp [cancel_job, h']

/-- Concrete state for the C10 witness: one completed stored job and no
running tasks. -/
def jmStW : JMState :=
  ⟨[⟨7, JobStatus.COMPLETED, some "Job completed successfully".toList, 5⟩], []⟩

/-- Witness for claim C10 at a concrete state. -/
theorem cancel_job_not_running_witness :
    jmStW.running.contains 7 = false ∧
    cancel_job 99 jmStW 7 = .ok (false, jmStW) :=
  ⟨rfl, cancel_job_not_running 99 jmStW 7 rfl⟩

end TestOps
